/-
  Verification of the kiro-whatsapp-integration command-dispatch and
  event-notification pipeline.

  Shallow embedding of the TypeScript services into Lean 4:
  strings are lists of characters, machine time is `Int` (milliseconds),
  and each service method becomes a pure function on an explicit state.
  Sources embedded here:
    - circuit-breaker.service.ts        (CircuitBreaker)
    - event-broadcaster.ts              (EventBroadcaster throttle)
    - notification dispatcher service   (NotificationDispatcher)
    - command-validator.service.ts      (CommandValidatorService)
    - command-parser.service.ts         (CommandParserService)
    - workspace-manager.service.ts      (WorkspaceManagerClient cache)
    - whatsapp-sender.service.ts        (WhatsAppSender chunking)
-/

import Mathlib

set_option maxHeartbeats 1000000

/-! ### String utilities shared by several services

`Str` models a JavaScript string as a list of characters.  JS string
operations used by the sources (`trim`, `replace(/\s+/g,' ')`,
`includes`, `lastIndexOf`, `substring`) are given char-list models. -/

abbrev Str := List Char

/-- Character list of a Lean string literal. -/
def str (s : String) : Str := s.data

/-- Decimal rendering of a natural number, as JS `${n}` template interpolation. -/
def natStr (n : Nat) : Str := (Nat.repr n).data

/-- Whitespace class used by JS `trim` and `\s` (common members; the rare
Unicode space code points are not modelled, none of the sources emit them). -/
def isWsChar (c : Char) : Bool :=
  c = ' ' || c = '\n' || c = '\t' || c = '\r' || c.toNat = 11 || c.toNat = 12

/-- JS `String.prototype.trim`: drop whitespace from both ends. -/
def trimChars (s : Str) : Str :=
  ((s.dropWhile isWsChar).reverse.dropWhile isWsChar).reverse

/-- JS `String.prototype.includes`: `sub` occurs contiguously inside `s`. -/
def includesSub (s sub : Str) : Bool :=
  s.tails.any (fun t => sub.isPrefixOf t)

theorem trimChars_length_le (s : Str) : (trimChars s).length ≤ s.length := by
  unfold trimChars
  calc ((s.dropWhile isWsChar).reverse.dropWhile isWsChar).reverse.length
      = ((s.dropWhile isWsChar).reverse.dropWhile isWsChar).length := List.length_reverse _
    _ ≤ (s.dropWhile isWsChar).reverse.length :=
        (List.dropWhile_sublist _).length_le
    _ = (s.dropWhile isWsChar).length := List.length_reverse _
    _ ≤ s.length := (List.dropWhile_sublist _).length_le

/-! ### Circuit breaker (`circuit-breaker.service.ts`)

The breaker is embedded as a state machine.  A call to `execute` is a
step taking the wall-clock time `now` of the call and the outcome of the
wrapped operation (`true` = the promise resolved).  The `ExecResult`
records, besides the new breaker state, whether the underlying operation
was invoked at all (`attempted`; `false` means the fail-fast throw) and
the breaker state at the moment of the invocation (`calledIn`), which is
observable in the source through the `onStateChange` callback fired by
`transitionTo` before `fn()` runs.  The `resetTimeout` timer of
`scheduleReset` is an asynchronous event outside the call sequence and
is not modelled (the claims do not mention it). -/

namespace CircuitBreaker

inductive CircuitState : Type where
  | CLOSED | OPEN | HALF_OPEN
deriving DecidableEq, Repr

structure Options where
  failureThreshold : Nat
  successThreshold : Nat
  timeout : Int
  resetTimeout : Int
deriving Repr

structure CBState where
  state : CircuitState
  failureCount : Nat
  successCount : Nat
  nextAttemptTime : Option Int
  totalRequests : Nat
  totalFailures : Nat
  totalSuccesses : Nat
deriving DecidableEq, Repr

/-- State of a freshly constructed breaker. -/
def initial : CBState :=
  ⟨.CLOSED, 0, 0, none, 0, 0, 0⟩

/-- `onSuccess` of the source: bookkeeping after the wrapped call resolved. -/
def onSuccess (opts : Options) (st0 : CBState) : CBState :=
  let st := { st0 with totalSuccesses := st0.totalSuccesses + 1 }
  match st0.state with
  | .HALF_OPEN =>
    let sc := st.successCount + 1
    if opts.successThreshold ≤ sc then
      { st with state := .CLOSED, failureCount := 0, successCount := 0,
                nextAttemptTime := none }
    else
      { st with successCount := sc }
  | .CLOSED => { st with failureCount := 0 }
  | .OPEN => st

/-- `onFailure` of the source: bookkeeping after the wrapped call rejected. -/
def onFailure (opts : Options) (now : Int) (st0 : CBState) : CBState :=
  let st := { st0 with totalFailures := st0.totalFailures + 1,
                       failureCount := st0.failureCount + 1 }
  match st0.state with
  | .HALF_OPEN =>
    { st with state := .OPEN, nextAttemptTime := some (now + opts.timeout) }
  | .CLOSED =>
    if opts.failureThreshold ≤ st.failureCount then
      { st with state := .OPEN, nextAttemptTime := some (now + opts.timeout) }
    else
      st
  | .OPEN => st

structure ExecResult where
  st : CBState
  attempted : Bool
  calledIn : Option CircuitState
deriving DecidableEq, Repr

/-- The `try { await fn() } ...` tail of `execute`, invoked once the breaker
decided to let the call through. -/
def invokeCall (opts : Options) (now : Int) (outcome : Bool) (st : CBState) : ExecResult :=
  ⟨if outcome then onSuccess opts st else onFailure opts now st, true, some st.state⟩

/-- `execute` of the source: fail fast while OPEN and the cooldown has not
elapsed, otherwise (transitioning OPEN to HALF_OPEN first) invoke the call. -/
def execute (opts : Options) (st0 : CBState) (now : Int) (outcome : Bool) : ExecResult :=
  let st := { st0 with totalRequests := st0.totalRequests + 1 }
  match st0.state with
  | .OPEN =>
    match st0.nextAttemptTime with
    | some t =>
      if now < t then ⟨st, false, none⟩
      else invokeCall opts now outcome { st with state := .HALF_OPEN }
    | none => invokeCall opts now outcome { st with state := .HALF_OPEN }
  | _ => invokeCall opts now outcome st

/-- A sequence of executed calls: each element is (time of the call,
outcome of the wrapped operation when it is invoked). -/
def runCB (opts : Options) (st : CBState) (steps : List (Int × Bool)) : CBState :=
  steps.foldl (fun s p => (execute opts s p.1 p.2).st) st

theorem runCB_cons (opts : Options) (st : CBState) (p : Int × Bool)
    (steps : List (Int × Bool)) :
    runCB opts st (p :: steps) = runCB opts (execute opts st p.1 p.2).st steps := rfl

/-- One failing call in CLOSED: the failure counter increments, and the breaker
opens exactly when the counter reaches the threshold. -/
theorem execute_closed_fail (opts : Options) (st : CBState) (now : Int)
    (h : st.state = .CLOSED) :
    (execute opts st now false).st.state
        = (if opts.failureThreshold ≤ st.failureCount + 1 then .OPEN else .CLOSED)
    ∧ (execute opts st now false).st.failureCount = st.failureCount + 1 := by
  simp [execute, invokeCall, onFailure, h]
  split <;> simp

/-- A run of consecutive failing calls that exhausts the failure threshold
starting from CLOSED ends in OPEN. -/
theorem cb_fail_run (opts : Options) :
    ∀ (times : List Int) (st : CBState), st.state = .CLOSED →
      st.failureCount + times.length = opts.failureThreshold → times ≠ [] →
      (runCB opts st (times.map fun t => (t, false))).state = .OPEN := by
  intro times
  induction times with
  | nil => intro st _ _ hne; exact absurd rfl hne
  | cons t ts ih =>
    intro st hcl hsum _
    obtain ⟨hstate, hcount⟩ := execute_closed_fail opts st t hcl
    rw [List.map_cons, runCB_cons]
    rcases List.eq_nil_or_concat ts with hts | ⟨_, _, hts⟩
    · subst hts
      have hth : opts.failureThreshold ≤ st.failureCount + 1 := by
        simp at hsum; omega
      rw [if_pos hth] at hstate
      simpa [runCB] using hstate
    · have htslen : 0 < ts.length := by
        subst hts; simp
      have hlt : ¬ opts.failureThreshold ≤ st.failureCount + 1 := by
        simp at hsum; omega
      rw [if_neg hlt] at hstate
      refine ih _ hstate ?_ ?_
      · rw [hcount]; simp at hsum ⊢; omega
      · intro hnil; rw [hnil] at htslen; simp at htslen

/-- One successful call in HALF_OPEN: the success counter increments, and the
breaker closes exactly when the counter reaches the success threshold. -/
theorem execute_halfopen_success (opts : Options) (st : CBState) (now : Int)
    (h : st.state = .HALF_OPEN) :
    (execute opts st now true).st.state
        = (if opts.successThreshold ≤ st.successCount + 1 then .CLOSED else .HALF_OPEN)
    ∧ (execute opts st now true).st.successCount
        = (if opts.successThreshold ≤ st.successCount + 1 then 0 else st.successCount + 1) := by
  simp [execute, invokeCall, onSuccess, h]
  split <;> simp

/-- A run of consecutive successful calls that exhausts the success threshold
starting from HALF_OPEN ends in CLOSED. -/
theorem cb_success_run (opts : Options) :
    ∀ (times : List Int) (st : CBState), st.state = .HALF_OPEN →
      st.successCount + times.length = opts.successThreshold → times ≠ [] →
      (runCB opts st (times.map fun t => (t, true))).state = .CLOSED := by
  intro times
  induction times with
  | nil => intro st _ _ hne; exact absurd rfl hne
  | cons t ts ih =>
    intro st hho hsum _
    obtain ⟨hstate, hcount⟩ := execute_halfopen_success opts st t hho
    rw [List.map_cons, runCB_cons]
    rcases List.eq_nil_or_concat ts with hts | ⟨_, _, hts⟩
    · subst hts
      have hth : opts.successThreshold ≤ st.successCount + 1 := by
        simp at hsum; omega
      rw [if_pos hth] at hstate
      simpa [runCB] using hstate
    · have htslen : 0 < ts.length := by
        subst hts; simp
      have hlt : ¬ opts.successThreshold ≤ st.successCount + 1 := by
        simp at hsum; omega
      rw [if_neg hlt] at hstate
      rw [if_neg hlt] at hcount
      refine ih _ hstate ?_ ?_
      · rw [hcount]; simp at hsum ⊢; omega
      · intro hnil; rw [hnil] at htslen; simp at htslen

end CircuitBreaker

/-- C2: the circuit breaker state machine satisfies, for every sequence of
executed calls: `failureThreshold` consecutive failures in CLOSED make the
state OPEN; while OPEN and before the cooldown elapses, calls fail fast
without invoking the operation and the state stays OPEN; once the cooldown
timeout has elapsed, the next call is attempted and it is attempted in
HALF_OPEN; `successThreshold` consecutive successes in HALF_OPEN return the
state to CLOSED; and any single failure in HALF_OPEN returns the state to
OPEN with the cooldown restarted from the time of that call. -/
theorem circuit_breaker_transition_table (opts : CircuitBreaker.Options)
    (hf : 0 < opts.failureThreshold) (hs : 0 < opts.successThreshold) :
    (∀ (st : CircuitBreaker.CBState) (times : List Int),
      st.state = .CLOSED → st.failureCount = 0 →
      times.length = opts.failureThreshold →
      (CircuitBreaker.runCB opts st (times.map fun t => (t, false))).state = .OPEN)
    ∧ (∀ (st : CircuitBreaker.CBState) (t now : Int) (outcome : Bool),
        st.state = .OPEN → st.nextAttemptTime = some t → now < t →
        (CircuitBreaker.execute opts st now outcome).attempted = false
        ∧ (CircuitBreaker.execute opts st now outcome).st.state = .OPEN)
    ∧ (∀ (st : CircuitBreaker.CBState) (t now : Int) (outcome : Bool),
        st.state = .OPEN → st.nextAttemptTime = some t → t ≤ now →
        (CircuitBreaker.execute opts st now outcome).attempted = true
        ∧ (CircuitBreaker.execute opts st now outcome).calledIn = some .HALF_OPEN)
    ∧ (∀ (st : CircuitBreaker.CBState) (times : List Int),
        st.state = .HALF_OPEN → st.successCount = 0 →
        times.length = opts.successThreshold →
        (CircuitBreaker.runCB opts st (times.map fun t => (t, true))).state = .CLOSED)
    ∧ (∀ (st : CircuitBreaker.CBState) (now : Int),
        st.state = .HALF_OPEN →
        (CircuitBreaker.execute opts st now false).st.state = .OPEN
        ∧ (CircuitBreaker.execute opts st now false).st.nextAttemptTime
            = some (now + opts.timeout)
        ∧ (CircuitBreaker.execute opts st now false).attempted = true) := by
  refine ⟨?_, ?_, ?_, ?_, ?_⟩
  · intro st times hcl hzero hlen
    refine CircuitBreaker.cb_fail_run opts times st hcl (by omega) ?_
    intro hnil
    rw [hnil] at hlen
    simp at hlen
    omega
  · intro st t now outcome hop hnat hlt
    simp [CircuitBreaker.execute, hop, hnat, hlt]
  · intro st t now outcome hop hnat hge
    have : ¬ now < t := by omega
    simp [CircuitBreaker.execute, CircuitBreaker.invokeCall, hop, hnat, this]
  · intro st times hho hzero hlen
    refine CircuitBreaker.cb_success_run opts times st hho (by omega) ?_
    intro hnil
    rw [hnil] at hlen
    simp at hlen
    omega
  · intro st now hho
    simp [CircuitBreaker.execute, CircuitBreaker.invokeCall, CircuitBreaker.onFailure, hho]

/-- Witness for C2 at the concrete configuration of
`resilient-whatsapp.service.ts` (failureThreshold 5, successThreshold 2,
timeout 60000 ms): five consecutive failing calls from the initial CLOSED
state leave the breaker OPEN. -/
theorem circuit_breaker_transition_table_witness :
    (CircuitBreaker.runCB ⟨5, 2, 60000, 300000⟩ CircuitBreaker.initial
      ([0, 1, 2, 3, 4].map fun t => (t, false))).state = .OPEN :=
  (circuit_breaker_transition_table ⟨5, 2, 60000, 300000⟩ (by decide) (by decide)).1
    CircuitBreaker.initial [0, 1, 2, 3, 4] rfl rfl (by decide)

/-! ### Event throttle (`event-broadcaster.ts`)

`EventBroadcaster.broadcast` consults `shouldThrottle`, forwards the event
to every connected client when not throttled, and then records it via
`updateThrottleState`.  Events are modelled by their timestamps (the
listeners in `event-listeners.ts` stamp events with `new Date()` at
emission, so an event's timestamp is its arrival time and arrivals are
non-decreasing); the state for one event type keeps the retained
timestamps and the time of the last broadcast.  Forwarding to subscribers
is modelled by the list of forwarded timestamps. -/

namespace Throttle

structure ThrottleConfig where
  enabled : Bool
  windowMs : Int
  maxEvents : Nat
deriving DecidableEq, Repr

structure ThrottleState where
  events : List Int
  lastBroadcast : Int
deriving DecidableEq, Repr

/-- `shouldThrottle` of the source: no state means no throttling; a last
broadcast more than `windowMs` ago means no throttling; otherwise throttle
exactly when the retained events within the window reach `maxEvents`. -/
def shouldThrottle (cfg : ThrottleConfig) (st : Option ThrottleState) (now : Int) : Bool :=
  if !cfg.enabled then false
  else
    match st with
    | none => false
    | some s =>
      if cfg.windowMs < now - s.lastBroadcast then false
      else
        decide (cfg.maxEvents ≤
          (s.events.filter fun t => decide (now - t < cfg.windowMs)).length)

/-- `updateThrottleState` of the source: append the event, set
`lastBroadcast`, and prune entries that fell out of the window. -/
def updateThrottleState (cfg : ThrottleConfig) (st : Option ThrottleState) (now : Int) :
    Option ThrottleState :=
  if !cfg.enabled then st
  else
    let s := st.getD ⟨[], now⟩
    some ⟨(s.events ++ [now]).filter fun t => decide (now - t < cfg.windowMs), now⟩

/-- `broadcast` of the source, restricted to its throttling effect: the event
at time `now` is either dropped (`false`) or forwarded to all subscribers and
recorded (`true`). -/
def broadcastStep (cfg : ThrottleConfig) (st : Option ThrottleState) (now : Int) :
    Option ThrottleState × Bool :=
  if shouldThrottle cfg st now then (st, false)
  else (updateThrottleState cfg st now, true)

/-- Process a sequence of incoming events; returns the final throttle state
and the timestamps of the forwarded events, in arrival order. -/
def broadcastRun (cfg : ThrottleConfig) :
    Option ThrottleState → List Int → Option ThrottleState × List Int
  | st, [] => (st, [])
  | st, t :: rest =>
    ((broadcastRun cfg (broadcastStep cfg st t).1 rest).1,
     (if (broadcastStep cfg st t).2 then [t] else [])
       ++ (broadcastRun cfg (broadcastStep cfg st t).1 rest).2)

/-- Membership of time `t` in the sliding window of length `w` ending at `T`
(half-open, matching the strict `now - t < windowMs` prune of the source). -/
def winB (w T t : Int) : Bool := decide (t ≤ T ∧ T < t + w)

/-- At most `m` forwarded events fall in any sliding window of length `w`. -/
def SlideBound (w : Int) (m : Nat) (fwd : List Int) : Prop :=
  ∀ T : Int, (fwd.filter (winB w T)).length ≤ m

/-- Relation between the throttle state and the history of forwarded events:
the state exists exactly when something was forwarded, `lastBroadcast` is the
last forwarded time, and `events` retains the forwarded times still within
the window of `lastBroadcast`. -/
def ThrInv (w : Int) (st : Option ThrottleState) (fwd : List Int) : Prop :=
  match st with
  | none => fwd = []
  | some s =>
    (∀ t ∈ fwd, t ≤ s.lastBroadcast) ∧ s.lastBroadcast ∈ fwd
    ∧ s.events = fwd.filter fun t => decide (s.lastBroadcast - t < w)

theorem throttle_step (w : Int) (m : Nat) (hm : 0 < m)
    (st : Option ThrottleState) (fwd : List Int) (now : Int)
    (hub : ∀ t ∈ fwd, t ≤ now)
    (hinv : ThrInv w st fwd) (hbd : SlideBound w m fwd) :
    ThrInv w (broadcastStep ⟨true, w, m⟩ st now).1
      (fwd ++ if (broadcastStep ⟨true, w, m⟩ st now).2 then [now] else [])
    ∧ SlideBound w m
      (fwd ++ if (broadcastStep ⟨true, w, m⟩ st now).2 then [now] else [])
    ∧ (∀ t ∈ (fwd ++ if (broadcastStep ⟨true, w, m⟩ st now).2 then [now] else []),
        t ≤ now)
    ∧ ((broadcastStep ⟨true, w, m⟩ st now).2 = true
        ↔ (fwd.filter (winB w now)).length < m) := by
  have hthr : shouldThrottle ⟨true, w, m⟩ st now = true
      ↔ m ≤ (fwd.filter (winB w now)).length := by
    match st with
    | none =>
      have hfwd : fwd = [] := hinv
      subst hfwd
      simp [shouldThrottle]
      omega
    | some s =>
      obtain ⟨hle, hmem, hev⟩ := hinv
      have hlb : s.lastBroadcast ≤ now := hub _ hmem
      by_cases hgap : w < now - s.lastBroadcast
      · have hnil : fwd.filter (winB w now) = [] := by
          rw [List.filter_eq_nil_iff]
          intro t ht
          have h1 : t ≤ s.lastBroadcast := hle t ht
          simp only [winB, decide_eq_true_eq, not_and]
          intro _
          omega
        simp [shouldThrottle, hgap, hnil]
        omega
      · have hevnow : s.events.filter (fun t => decide (now - t < w))
            = fwd.filter (winB w now) := by
          rw [hev, List.filter_filter]
          refine List.filter_congr ?_
          intro t ht
          have h1 : t ≤ s.lastBroadcast := hle t ht
          rw [Bool.eq_iff_iff]
          simp only [Bool.and_eq_true, decide_eq_true_eq, winB]
          omega
        simp [shouldThrottle, hgap, hevnow]
  by_cases hdrop : shouldThrottle ⟨true, w, m⟩ st now = true
  · have hcnt : m ≤ (fwd.filter (winB w now)).length := hthr.mp hdrop
    simp only [broadcastStep, hdrop, if_true]
    refine ⟨by simpa using hinv, by simpa using hbd, by simpa using hub, ?_⟩
    simp
    omega
  · have hcnt : (fwd.filter (winB w now)).length < m := by
      rcases Nat.lt_or_ge (fwd.filter (winB w now)).length m with h | h
      · exact h
      · exact absurd (hthr.mpr h) hdrop
    rw [Bool.not_eq_true] at hdrop
    have hevfwd : (st.getD ⟨[], now⟩).events.filter (fun t => decide (now - t < w))
        = fwd.filter fun t => decide (now - t < w) := by
      match st with
      | none =>
        have hfwd : fwd = [] := hinv
        subst hfwd
        rfl
      | some s =>
        obtain ⟨hle, hmem, hev⟩ := hinv
        have hlb : s.lastBroadcast ≤ now := hub _ hmem
        simp only [Option.getD_some]
        rw [hev, List.filter_filter]
        refine List.filter_congr ?_
        intro t ht
        have h1 : t ≤ s.lastBroadcast := hle t ht
        rw [Bool.eq_iff_iff]
        simp only [Bool.and_eq_true, decide_eq_true_eq]
        omega
    simp only [broadcastStep, hdrop, Bool.false_eq_true, if_false, if_true]
    refine ⟨?_, ?_, ?_, by simp [hcnt]⟩
    · -- invariant for the updated state
      show ThrInv w (updateThrottleState ⟨true, w, m⟩ st now) (fwd ++ [now])
      simp only [updateThrottleState, Bool.not_true, Bool.false_eq_true, if_false,
        ThrInv]
      refine ⟨?_, ?_, ?_⟩
      · intro t ht
        rcases List.mem_append.mp ht with h | h
        · exact hub t h
        · simp at h; omega
      · simp
      · rw [List.filter_append, hevfwd, List.filter_append]
    · -- sliding bound for fwd ++ [now]
      intro T
      rw [List.filter_append, List.length_append]
      by_cases hT : winB w T now = true
      · have h2 : ([now].filter (winB w T)).length = 1 := by
          simp [List.filter, hT]
        have hmono : (fwd.filter (winB w T)).length
            ≤ (fwd.filter (winB w now)).length := by
          rw [← List.countP_eq_length_filter, ← List.countP_eq_length_filter]
          refine List.countP_mono_left ?_
          intro t ht hwt
          have h1 : t ≤ now := hub t ht
          simp only [winB, decide_eq_true_eq] at hwt hT ⊢
          omega
        omega
      · have h2 : ([now].filter (winB w T)).length = 0 := by
          simp [List.filter, hT]
        have := hbd T
        omega
    · intro t ht
      rcases List.mem_append.mp ht with h | h
      · exact hub t h
      · simp at h; omega

theorem throttle_run (w : Int) (m : Nat) (hm : 0 < m) :
    ∀ (times : List Int) (st : Option ThrottleState) (fwd : List Int),
      times.Pairwise (· ≤ ·) →
      (∀ t ∈ fwd, ∀ u ∈ times, t ≤ u) →
      ThrInv w st fwd → SlideBound w m fwd →
      ThrInv w (broadcastRun ⟨true, w, m⟩ st times).1
        (fwd ++ (broadcastRun ⟨true, w, m⟩ st times).2)
      ∧ SlideBound w m (fwd ++ (broadcastRun ⟨true, w, m⟩ st times).2)
      ∧ ∀ t ∈ (broadcastRun ⟨true, w, m⟩ st times).2, t ∈ times := by
  intro times
  induction times with
  | nil =>
    intro st fwd _ _ hinv hbd
    simpa [broadcastRun] using ⟨hinv, hbd⟩
  | cons now rest ih =>
    intro st fwd hpair hord hinv hbd
    have hub : ∀ t ∈ fwd, t ≤ now := fun t ht => hord t ht now (by simp)
    obtain ⟨hinv1, hbd1, hub1, _⟩ := throttle_step w m hm st fwd now hub hinv hbd
    have hnowrest : ∀ u ∈ rest, now ≤ u := (List.pairwise_cons.mp hpair).1
    have hord' : ∀ t ∈ (fwd ++ if (broadcastStep ⟨true, w, m⟩ st now).2
        then [now] else []), ∀ u ∈ rest, t ≤ u :=
      fun t ht u hu => le_trans (hub1 t ht) (hnowrest u hu)
    obtain ⟨hinv2, hbd2, hsub2⟩ :=
      ih (broadcastStep ⟨true, w, m⟩ st now).1 _ hpair.of_cons hord' hinv1 hbd1
    refine ⟨?_, ?_, ?_⟩
    · show ThrInv w (broadcastRun ⟨true, w, m⟩
        (broadcastStep ⟨true, w, m⟩ st now).1 rest).1 _
      simpa [broadcastRun, List.append_assoc] using hinv2
    · show SlideBound w m _
      simpa [broadcastRun, List.append_assoc] using hbd2
    · intro t ht
      simp only [broadcastRun, List.mem_append] at ht
      rcases ht with h | h
      · rcases (broadcastStep ⟨true, w, m⟩ st now).2 with _ | _ <;> simp_all
      · exact List.mem_cons_of_mem _ (hsub2 t h)

end Throttle

/-- C3: for an event type configured with window `w` and limit `m` (throttling
enabled, `0 < m`, as in all four configured types) and any non-decreasing
sequence of incoming event times, (a) at most `m` events are forwarded to
subscribers within any sliding time interval of length `w`, and (b) each
arriving event is dropped exactly when the window already holds `m`
previously forwarded events, and otherwise forwarded (and appended to the
window). -/
theorem event_throttle_sliding_bound (w : Int) (m : Nat) (hm : 0 < m)
    (times : List Int) (hsorted : times.Pairwise (· ≤ ·)) :
    (∀ T : Int,
      ((Throttle.broadcastRun ⟨true, w, m⟩ none times).2.filter
        (Throttle.winB w T)).length ≤ m)
    ∧ (∀ (past : List Int) (now : Int) (rest : List Int),
        times = past ++ now :: rest →
        ((Throttle.broadcastStep ⟨true, w, m⟩
            (Throttle.broadcastRun ⟨true, w, m⟩ none past).1 now).2 = true
          ↔ ((Throttle.broadcastRun ⟨true, w, m⟩ none past).2.filter
              (Throttle.winB w now)).length < m)) := by
  constructor
  · intro T
    have h := Throttle.throttle_run w m hm times none [] hsorted
      (by simp) rfl (fun _ => by simp)
    simpa using h.2.1 T
  · intro past now rest heq
    subst heq
    have hpast : past.Pairwise (· ≤ ·) := (List.pairwise_append.mp hsorted).1
    have hcross : ∀ a ∈ past, a ≤ now :=
      fun a ha => (List.pairwise_append.mp hsorted).2.2 a ha now (by simp)
    obtain ⟨hinv, hbd, hsub⟩ := Throttle.throttle_run w m hm past none [] hpast
      (by simp) rfl (fun _ => by simp)
    rw [List.nil_append] at hinv hbd
    have hub : ∀ t ∈ (Throttle.broadcastRun ⟨true, w, m⟩ none past).2, t ≤ now :=
      fun t ht => hcross t (hsub t ht)
    exact (Throttle.throttle_step w m hm _ _ now hub hinv hbd).2.2.2

/-- Witness for C3 at the BUILD_COMPLETE configuration (window 5000 ms,
limit 2): processing arrivals at 0, 1 and 2 ms forwards at most two events
into the window ending at time 2. -/
theorem event_throttle_sliding_bound_witness :
    ((Throttle.broadcastRun ⟨true, 5000, 2⟩ none [0, 1, 2]).2.filter
      (Throttle.winB 5000 2)).length ≤ 2 :=
  (event_throttle_sliding_bound 5000 2 (by decide) [0, 1, 2] (by decide)).1 2

/-! ### Notification dispatcher (notification dispatcher service)

State of the dispatcher: the Redis FIFO queue (`notification_queue`), the
per-user open batches (`notification_batch:{userId}` keys), and the list of
delivery attempts handed to `whatsappSender.sendMessage`, in order.
Timestamps, metadata and the batch TTL/timers are not modelled; `uuidv4` is
modelled by a caller-supplied id; delivery is modelled as succeeding (the
failure/re-queue path is not exercised by the claims). -/

namespace Dispatcher

inductive NotificationType : Type where
  | BUILD_COMPLETE | ERROR | GIT_OPERATION | FILE_CHANGED
deriving DecidableEq, Repr

inductive NotificationPriority : Type where
  | LOW | MEDIUM | HIGH | URGENT
deriving DecidableEq, Repr

structure Notification where
  id : Str
  userId : Str
  phoneNumber : Str
  type : NotificationType
  priority : NotificationPriority
  title : Str
  message : Str
deriving DecidableEq, Repr

structure BatchedNotifications where
  userId : Str
  phoneNumber : Str
  notifications : List Notification
deriving DecidableEq, Repr

structure NotificationQueueItem where
  notification : Notification
  retryCount : Nat
deriving DecidableEq, Repr

structure DispatchState where
  queue : List NotificationQueueItem
  batches : Str → Option BatchedNotifications
  sent : List (Str × Str)

def emptyDispatch : DispatchState := ⟨[], fun _ => none, []⟩

/-- `getEmojiForType` of the source.  (The TS `default` arm returning a bell
is unreachable for values of the closed `NotificationType` enum.) -/
def getEmojiForType : NotificationType → Str
  | .BUILD_COMPLETE => str "✅"
  | .ERROR => str "❌"
  | .GIT_OPERATION => str "🔀"
  | .FILE_CHANGED => str "📝"

/-- `formatSingleNotification`: `"{emoji} *{title}*\n\n{message}"`. -/
def formatSingleNotification (n : Notification) : Str :=
  getEmojiForType n.type ++ str " *" ++ n.title ++ str "*\n\n" ++ n.message

/-- The entry loop of `formatBatchedNotifications`: for the `i`-th (1-based)
notification, `"{i}. {emoji} *{title}*\n   {message}\n\n"`. -/
def batchEntries : Nat → List Notification → Str
  | _, [] => []
  | i, n :: rest =>
    natStr i ++ str ". " ++ getEmojiForType n.type ++ str " *" ++ n.title
      ++ str "*\n" ++ str "   " ++ n.message ++ str "\n\n"
      ++ batchEntries (i + 1) rest

/-- Header `"🔔 *{N} Workspace Updates*"`. -/
def batchHeader (k : Nat) : Str :=
  str "🔔 *" ++ natStr k ++ str " Workspace Updates*"

/-- `formatBatchedNotifications` of the source: a one-element batch uses the
single format; otherwise header, numbered entries, and a final `trim()`. -/
def formatBatchedNotifications (b : BatchedNotifications) : Str :=
  match b.notifications with
  | [n] => formatSingleNotification n
  | ns => trimChars (batchHeader ns.length ++ str "\n\n" ++ batchEntries 1 ns)

/-- `whatsappSender.sendMessage`, modelled as recording the delivery attempt
and succeeding. -/
def sendMessage (st : DispatchState) (phone msg : Str) : DispatchState :=
  { st with sent := st.sent ++ [(phone, msg)] }

/-- `addToBatch`: append the notification to the user's open batch (creating
the batch on its first notification). -/
def addToBatch (st : DispatchState) (userId : Str) (n : Notification) : DispatchState :=
  let existing := match st.batches userId with
    | some b => b.notifications
    | none => []
  let b : BatchedNotifications := ⟨userId, n.phoneNumber, existing ++ [n]⟩
  { st with batches := fun u => if u = userId then some b else st.batches u }

/-- `queueNotification`: build the notification, push it on the FIFO queue,
and add it to the user's batch (the source does this for every priority). -/
def queueNotification (st : DispatchState) (id userId phoneNumber : Str)
    (ty : NotificationType) (title message : Str)
    (priority : NotificationPriority) : DispatchState :=
  let n : Notification := ⟨id, userId, phoneNumber, ty, priority, title, message⟩
  let st1 := { st with queue := st.queue ++ [⟨n, 0⟩] }
  addToBatch st1 userId n

/-- `sendImmediately`: deliver the single-format message right away. -/
def sendImmediately (st : DispatchState) (n : Notification) : DispatchState :=
  sendMessage st n.phoneNumber (formatSingleNotification n)

/-- The `while`/`lPop` drain loop of `processQueue`, one popped item at a
time: an URGENT item is delivered immediately, every other item is discarded
from the queue without a delivery attempt. -/
def drainGo : List NotificationQueueItem → DispatchState → DispatchState
  | [], st => st
  | item :: rest, st =>
    drainGo rest
      (if item.notification.priority = .URGENT then sendImmediately st item.notification
       else st)

/-- `processQueue` of the source (with all sends succeeding, the loop pops
exactly the items initially in the queue). -/
def processQueue (st : DispatchState) : DispatchState :=
  drainGo st.queue { st with queue := [] }

/-- `processBatch`: remove the user's batch and deliver its formatted text. -/
def processBatch (st : DispatchState) (userId : Str) : DispatchState :=
  match st.batches userId with
  | none => st
  | some b =>
    let st1 := { st with batches := fun u => if u = userId then none else st.batches u }
    sendMessage st1 b.phoneNumber (formatBatchedNotifications b)

theorem drainGo_spec (q : List NotificationQueueItem) :
    ∀ st : DispatchState,
      drainGo q st =
        { queue := st.queue
          batches := st.batches
          sent := st.sent ++
            (q.filter fun item => decide (item.notification.priority = .URGENT)).map
              fun item =>
                (item.notification.phoneNumber,
                 formatSingleNotification item.notification) } := by
  induction q with
  | nil => intro st; simp [drainGo]
  | cons item rest ih =>
    intro st
    by_cases hurg : item.notification.priority = .URGENT
    · simp [drainGo, hurg, ih, sendImmediately, sendMessage, List.filter_cons]
    · simp [drainGo, hurg, ih, List.filter_cons]

end Dispatcher

/-- C9: for every item removed from the FIFO notification queue by the drain
loop (`processQueue`), a delivery attempt is made if and only if the item's
priority is URGENT: the drain loop empties the queue, leaves every batch
untouched, and appends to the delivery log exactly the single-format
messages of the URGENT items, in queue order — so a non-urgent notification
is delivered only through a batch flush. -/
theorem drain_loop_delivers_exactly_urgent (st : Dispatcher.DispatchState) :
    Dispatcher.processQueue st =
      { queue := []
        batches := st.batches
        sent := st.sent ++
          (st.queue.filter fun item =>
            decide (item.notification.priority = .URGENT)).map
            fun item =>
              (item.notification.phoneNumber,
               Dispatcher.formatSingleNotification item.notification) } := by
  rw [Dispatcher.processQueue, Dispatcher.drainGo_spec]

/-- C1: contrary to the spec (and the repository's own notification docs),
queueing an URGENT notification does NOT bypass batching: `queueNotification`
calls `addToBatch` unconditionally.  At the failing input — an URGENT
notification queued for a user with a pending MEDIUM one — the urgent
notification is delivered immediately from the FIFO queue by the drain loop
(before the batch window closes), but it is ALSO sitting in the recipient's
open batch and is delivered a second time when the batch window fires. -/
theorem urgent_notification_not_bypassing_batch :
    (let st1 := Dispatcher.queueNotification Dispatcher.emptyDispatch
        (str "id1") (str "u1") (str "p1") .GIT_OPERATION (str "T1") (str "M1") .MEDIUM
     let st2 := Dispatcher.queueNotification st1
        (str "id2") (str "u1") (str "p1") .ERROR (str "T2") (str "M2") .URGENT
     let st3 := Dispatcher.processQueue st2
     let nMed : Dispatcher.Notification :=
       ⟨str "id1", str "u1", str "p1", .GIT_OPERATION, .MEDIUM, str "T1", str "M1"⟩
     let nUrg : Dispatcher.Notification :=
       ⟨str "id2", str "u1", str "p1", .ERROR, .URGENT, str "T2", str "M2"⟩
     st3.sent = [(str "p1", Dispatcher.formatSingleNotification nUrg)]
     ∧ st3.batches (str "u1") = some ⟨str "u1", str "p1", [nMed, nUrg]⟩
     ∧ (Dispatcher.processBatch st3 (str "u1")).sent
         = [(str "p1", Dispatcher.formatSingleNotification nUrg),
            (str "p1", Dispatcher.formatBatchedNotifications
              ⟨str "u1", str "p1", [nMed, nUrg]⟩)]) := by
  decide

/-! ### Helpers about `trim` and separators, used for the batch format. -/

theorem dropWhile_append_of_all (p : Char → Bool) (x y : Str)
    (hx : ∀ c ∈ x, p c = true) :
    List.dropWhile p (x ++ y) = List.dropWhile p y := by
  induction x with
  | nil => rfl
  | cons c cs ih =>
    simp only [List.cons_append, List.dropWhile_cons, hx c (by simp), if_true]
    exact ih fun d hd => hx d (by simp [hd])

/-- `trim` is the identity on a block that starts and ends with non-whitespace
characters, followed by trailing whitespace. -/
theorem trimChars_block (front tail : Str)
    (h0 : ∃ c0 rest, front = c0 :: rest ∧ isWsChar c0 = false)
    (h1 : ∃ pre c1, front = pre ++ [c1] ∧ isWsChar c1 = false)
    (hw : ∀ c ∈ tail, isWsChar c = true) :
    trimChars (front ++ tail) = front := by
  obtain ⟨c0, rest, hfr0, h0⟩ := h0
  obtain ⟨pre, c1, hfr1, h1⟩ := h1
  unfold trimChars
  have hd : List.dropWhile isWsChar (front ++ tail) = front ++ tail := by
    rw [hfr0]
    simp [List.dropWhile_cons, h0]
  rw [hd, List.reverse_append, dropWhile_append_of_all isWsChar tail.reverse _
    (fun c hc => hw c (List.mem_reverse.mp hc))]
  rw [hfr1, List.reverse_append]
  simp [List.dropWhile_cons, h1]

/-- Join a list of blocks with a separator (the shape the spec gives for the
batched message body). -/
def joinSep (sep : Str) : List Str → Str
  | [] => []
  | [e] => e
  | e :: rest => e ++ sep ++ joinSep sep rest

theorem joinSep_concat (sep : Str) :
    ∀ (es : List Str) (e : Str), ∃ pre, joinSep sep (es ++ [e]) = pre ++ e := by
  intro es
  induction es with
  | nil => intro e; exact ⟨[], by simp [joinSep]⟩
  | cons a es ih =>
    intro e
    obtain ⟨pre, hp⟩ := ih e
    refine ⟨a ++ sep ++ pre, ?_⟩
    rcases hes : es ++ [e] with _ | ⟨b, r⟩
    · exact absurd hes (by simp)
    · have harm : joinSep sep (a :: b :: r) = a ++ sep ++ joinSep sep (b :: r) := rfl
      calc joinSep sep ((a :: es) ++ [e]) = joinSep sep (a :: (b :: r)) := by rw [List.cons_append, hes]
        _ = a ++ sep ++ joinSep sep (b :: r) := harm
        _ = a ++ sep ++ joinSep sep (es ++ [e]) := by rw [hes]
        _ = a ++ sep ++ (pre ++ e) := by rw [hp]
        _ = a ++ sep ++ pre ++ e := by simp [List.append_assoc]

namespace Dispatcher

/-- The `i`-th numbered entry of a batched message:
`"{i}. {emoji} *{title}*\n   {message}"`. -/
def entryLine (i : Nat) (n : Notification) : Str :=
  natStr i ++ str ". " ++ getEmojiForType n.type ++ str " *" ++ n.title
    ++ str "*\n" ++ str "   " ++ n.message

/-- The 1-indexed numbered entries for a list of notifications. -/
def entryLines : Nat → List Notification → List Str
  | _, [] => []
  | i, n :: rest => entryLine i n :: entryLines (i + 1) rest

theorem batchEntries_join :
    ∀ (ns : List Notification) (i : Nat), ns ≠ [] →
      batchEntries i ns = joinSep (str "\n\n") (entryLines i ns) ++ str "\n\n" := by
  intro ns
  induction ns with
  | nil => intro i h; exact absurd rfl h
  | cons n rest ih =>
    intro i _
    rcases rest with _ | ⟨n2, r2⟩
    · simp [batchEntries, entryLines, entryLine, joinSep]
    · have harm : joinSep (str "\n\n") (entryLine i n :: entryLines (i + 1) (n2 :: r2))
          = entryLine i n ++ str "\n\n" ++ joinSep (str "\n\n") (entryLines (i + 1) (n2 :: r2)) := by
        simp only [entryLines]
        rfl
      rw [show batchEntries i (n :: n2 :: r2)
            = natStr i ++ str ". " ++ getEmojiForType n.type ++ str " *" ++ n.title
              ++ str "*\n" ++ str "   " ++ n.message ++ str "\n\n"
              ++ batchEntries (i + 1) (n2 :: r2) from rfl,
          ih (i + 1) (by simp),
          show entryLines i (n :: n2 :: r2)
            = entryLine i n :: entryLines (i + 1) (n2 :: r2) from rfl,
          harm]
      simp [entryLine, List.append_assoc]

theorem entryLines_concat :
    ∀ (L : List Notification) (i : Nat) (nk : Notification),
      entryLines i (L ++ [nk]) = entryLines i L ++ [entryLine (i + L.length) nk] := by
  intro L
  induction L with
  | nil => intro i nk; simp [entryLines]
  | cons n L ih =>
    intro i nk
    have h1 : entryLines i ((n :: L) ++ [nk])
        = entryLine i n :: entryLines (i + 1) (L ++ [nk]) := rfl
    rw [h1, ih (i + 1) nk]
    have hidx : i + 1 + L.length = i + (n :: L).length := by
      simp [List.length_cons]
      omega
    rw [hidx]
    rfl

end Dispatcher

theorem formatBatched_single (b : Dispatcher.BatchedNotifications)
    (n : Dispatcher.Notification) (h : b.notifications = [n]) :
    Dispatcher.formatBatchedNotifications b = Dispatcher.formatSingleNotification n := by
  unfold Dispatcher.formatBatchedNotifications
  rw [h]

theorem formatBatched_cons₂ (b : Dispatcher.BatchedNotifications)
    (n1 n2 : Dispatcher.Notification) (r : List Dispatcher.Notification)
    (h : b.notifications = n1 :: n2 :: r) :
    Dispatcher.formatBatchedNotifications b
      = trimChars (Dispatcher.batchHeader (n1 :: n2 :: r).length ++ str "\n\n"
          ++ Dispatcher.batchEntries 1 (n1 :: n2 :: r)) := by
  unfold Dispatcher.formatBatchedNotifications
  rw [h]

/-- C6: for every flushed batch, the formatted message has exactly one entry
per notification, in arrival order.  A batch of one notification is rendered
with the single format `"{icon} *{title}*\n\n{body}"` (not the numbered-list
format).  A batch of more than one notification is rendered as the header
`"🔔 *N Workspace Updates*"` followed by the 1-indexed numbered entries
`"{i}. {icon} *{title}*\n   {body}"` joined by blank lines (the final
`trim()` of the source removes exactly the trailing separator provided the
last body ends in a non-whitespace character). -/
theorem batched_notification_format :
    (∀ (b : Dispatcher.BatchedNotifications) (n : Dispatcher.Notification),
      b.notifications = [n] →
      Dispatcher.formatBatchedNotifications b = Dispatcher.formatSingleNotification n)
    ∧ (∀ b : Dispatcher.BatchedNotifications,
        1 < b.notifications.length →
        (∃ nk c, b.notifications.getLast? = some nk
          ∧ nk.message.getLast? = some c ∧ isWsChar c = false) →
        Dispatcher.formatBatchedNotifications b
          = Dispatcher.batchHeader b.notifications.length ++ str "\n\n"
            ++ joinSep (str "\n\n") (Dispatcher.entryLines 1 b.notifications)) := by
  constructor
  · exact formatBatched_single
  · intro b hlen hend
    obtain ⟨nk, c, hlastn, hlastc, hcws⟩ := hend
    rcases hns : b.notifications with _ | ⟨n1, _ | ⟨n2, r⟩⟩
    · rw [hns] at hlen; simp at hlen
    · rw [hns] at hlen; simp at hlen
    rw [hns] at hlastn
    rw [formatBatched_cons₂ b n1 n2 r hns,
      Dispatcher.batchEntries_join (n1 :: n2 :: r) 1 (by simp),
      ← List.append_assoc]
    refine trimChars_block _ _ ?_ ?_ (by decide)
    · exact ⟨'🔔',
        str " *" ++ natStr (n1 :: n2 :: r).length ++ str " Workspace Updates*"
          ++ str "\n\n" ++ joinSep (str "\n\n") (Dispatcher.entryLines 1 (n1 :: n2 :: r)),
        rfl, by decide⟩
    · -- the block ends with the last character of the last body
      rcases List.eq_nil_or_concat (n1 :: n2 :: r) with hnil | ⟨L, nlast, hL⟩
      · simp at hnil
      have hL' : n1 :: n2 :: r = L ++ [nk] := by
        have hlast2 : nlast = nk := by
          rw [hL, List.concat_eq_append, List.getLast?_concat] at hlastn
          exact Option.some.inj hlastn
        rw [hL, List.concat_eq_append, hlast2]
      rcases List.eq_nil_or_concat nk.message with hmnil | ⟨mpre, cl, hmsg⟩
      · rw [hmnil] at hlastc; simp at hlastc
      have hmsg' : nk.message = mpre ++ [c] := by
        have hc2 : cl = c := by
          rw [hmsg, List.concat_eq_append, List.getLast?_concat] at hlastc
          exact Option.some.inj hlastc
        rw [hmsg, List.concat_eq_append, hc2]
      rw [hL', Dispatcher.entryLines_concat]
      obtain ⟨pre, hpre⟩ := joinSep_concat (str "\n\n")
        (Dispatcher.entryLines 1 L) (Dispatcher.entryLine (1 + L.length) nk)
      rw [hpre]
      refine ⟨Dispatcher.batchHeader (L ++ [nk]).length ++ str "\n\n" ++ pre
        ++ (natStr (1 + L.length) ++ str ". " ++ Dispatcher.getEmojiForType nk.type
            ++ str " *" ++ nk.title ++ str "*\n" ++ str "   ")
        ++ mpre, c, ?_, hcws⟩
      rw [show Dispatcher.entryLine (1 + L.length) nk
          = (natStr (1 + L.length) ++ str ". " ++ Dispatcher.getEmojiForType nk.type
              ++ str " *" ++ nk.title ++ str "*\n" ++ str "   ") ++ nk.message from rfl,
        hmsg']
      simp [List.append_assoc]

/-- Witness for C6 on a concrete two-notification batch: the flushed message
is exactly the header for two updates followed by the two numbered entries. -/
theorem batched_notification_format_witness :
    Dispatcher.formatBatchedNotifications
        ⟨str "u1", str "p1",
          [⟨str "i1", str "u1", str "p1", .BUILD_COMPLETE, .LOW, str "T1", str "M1"⟩,
           ⟨str "i2", str "u1", str "p1", .ERROR, .HIGH, str "T2", str "M2"⟩]⟩
      = Dispatcher.batchHeader 2 ++ str "\n\n"
        ++ joinSep (str "\n\n") (Dispatcher.entryLines 1
          [⟨str "i1", str "u1", str "p1", .BUILD_COMPLETE, .LOW, str "T1", str "M1"⟩,
           ⟨str "i2", str "u1", str "p1", .ERROR, .HIGH, str "T2", str "M2"⟩]) :=
  batched_notification_format.2 _ (by decide)
    ⟨⟨str "i2", str "u1", str "p1", .ERROR, .HIGH, str "T2", str "M2"⟩, '2',
      by decide, by decide, by decide⟩

/-! ### Commands (`command.types.ts`)

The closed command variant produced by the parser; every command carries the
original (normalized) raw text. -/

inductive Command : Type where
  | fileRead (raw path : Str)
  | fileList (raw directory : Str)
  | search (raw query : Str) (pattern : Option Str)
  | status (raw : Str)
  | help (raw : Str)
deriving DecidableEq, Repr

theorem mem_ite_singleton {α : Type} (a x : α) (c : Prop) [Decidable c] :
    a ∈ (if c then [x] else []) ↔ c ∧ a = x := by
  by_cases h : c <;> simp [h]

/-! ### Command validator (`command-validator.service.ts`)

`new RegExp(pattern)` success is an engine property outside the embedded
code; it is abstracted as the oracle parameter `regexOk`. -/

namespace Validator

def INVALID_PATH_FORMAT : Str := str "Invalid path format"
def PATH_REQUIRED : Str := str "File path is required"
def PATH_TOO_LONG : Str := str "Path exceeds maximum length of 500 characters"
def ABSOLUTE_PATH_NOT_ALLOWED : Str :=
  str "Absolute paths are not allowed for security reasons"
def PATH_TRAVERSAL_DETECTED : Str :=
  str "Path traversal detected (../ is not allowed)"
def DIRECTORY_REQUIRED : Str := str "Directory path is required"
def INVALID_DIRECTORY_FORMAT : Str := str "Invalid directory format"
def QUERY_REQUIRED : Str := str "Search query is required"
def QUERY_TOO_SHORT : Str := str "Search query must be at least 2 characters"
def QUERY_TOO_LONG : Str := str "Search query exceeds maximum length of 200 characters"
def INVALID_PATTERN : Str := str "Invalid regex pattern"
def PATTERN_TOO_LONG : Str := str "Pattern exceeds maximum length of 200 characters"
def UNKNOWN_COMMAND_TYPE : Str := str "Unknown command type"

def isAsciiLetterChar (c : Char) : Bool :=
  ('a' ≤ c && c ≤ 'z') || ('A' ≤ c && c ≤ 'Z')

/-- `isAbsolutePath`: the regexes `/^[a-zA-Z]:[\\\/]/`, `/^\\\\/` and the
`startsWith('/')` check. -/
def isAbsolutePath (p : Str) : Bool :=
  (match p with
   | c :: d :: e :: _ => isAsciiLetterChar c && (d = ':') && (e = '\\' || e = '/')
   | _ => false)
  || (match p with
      | c :: d :: _ => (c = '\\') && (d = '\\')
      | _ => false)
  || (match p with
      | c :: _ => c = '/'
      | _ => false)

/-- `hasPathTraversal`: `/\.\.[\\/]/.test(path) || path.includes('..')`. -/
def hasPathTraversal (p : Str) : Bool :=
  (p.tails.any fun t =>
    match t with
    | a :: b :: e :: _ => (a = '.') && (b = '.') && (e = '\\' || e = '/')
    | _ => false)
  || includesSub p (str "..")

/-- `isValidPathFormat`: no character from `/[<>:"|?*\x00-\x1F]/`. -/
def isValidPathFormat (p : Str) : Bool :=
  !(p.any fun c =>
    c = '<' || c = '>' || c = ':' || c = '"' || c = '|' || c = '?' || c = '*'
      || c.toNat ≤ 31)

/-- `validatePath` of the source: the four checks run in order and their
violations are pushed onto the same error list (only a missing path returns
early). -/
def validatePath (p : Str) (isDirectory : Bool) : List Str :=
  if p = [] then
    [if isDirectory then DIRECTORY_REQUIRED else PATH_REQUIRED]
  else
    (if 500 < p.length then [PATH_TOO_LONG] else [])
    ++ (if isAbsolutePath p then [ABSOLUTE_PATH_NOT_ALLOWED] else [])
    ++ (if hasPathTraversal p then [PATH_TRAVERSAL_DETECTED] else [])
    ++ (if !isValidPathFormat p then
          [if isDirectory then INVALID_DIRECTORY_FORMAT else INVALID_PATH_FORMAT]
        else [])

/-- `validateSearchCommand` of the source (`regexOk` abstracts
`new RegExp(pattern)` succeeding; an empty pattern is falsy in TS and skips
pattern validation). -/
def validateSearch (regexOk : Str → Bool) (query : Str) (pattern : Option Str) : List Str :=
  (if query = [] then [QUERY_REQUIRED]
   else
     (if query.length < 2 then [QUERY_TOO_SHORT] else [])
     ++ (if 200 < query.length then [QUERY_TOO_LONG] else []))
  ++ (match pattern with
      | some pat =>
        if pat = [] then []
        else
          (if 200 < pat.length then [PATTERN_TOO_LONG] else [])
          ++ (if !regexOk pat then [INVALID_PATTERN] else [])
      | none => [])

structure ValidationResult where
  valid : Bool
  errors : List Str
deriving DecidableEq, Repr

/-- `validate` of the source. -/
def validate (regexOk : Str → Bool) : Command → ValidationResult
  | .fileRead _ p => ⟨(validatePath p false).isEmpty, validatePath p false⟩
  | .fileList _ d =>
    if d = [] then ⟨false, [DIRECTORY_REQUIRED]⟩
    else ⟨(validatePath d true).isEmpty, validatePath d true⟩
  | .search _ q pat =>
    ⟨(validateSearch regexOk q pat).isEmpty, validateSearch regexOk q pat⟩
  | .status _ => ⟨true, []⟩
  | .help _ => ⟨true, []⟩

theorem mem_validatePath (e p : Str) (isDir : Bool) (hp : p ≠ []) :
    e ∈ validatePath p isDir ↔
      (500 < p.length ∧ e = PATH_TOO_LONG)
      ∨ (isAbsolutePath p = true ∧ e = ABSOLUTE_PATH_NOT_ALLOWED)
      ∨ (hasPathTraversal p = true ∧ e = PATH_TRAVERSAL_DETECTED)
      ∨ (isValidPathFormat p = false ∧
          e = (if isDir then INVALID_DIRECTORY_FORMAT else INVALID_PATH_FORMAT)) := by
  simp only [validatePath, hp, if_false, List.mem_append, mem_ite_singleton,
    Bool.not_eq_true', Bool.not_eq_eq_eq_not, Bool.not_true]
  constructor
  · rintro (((h | h) | h) | h)
    · exact Or.inl h
    · rcases h with ⟨ha, he⟩
      exact Or.inr (Or.inl ⟨by simpa using ha, he⟩)
    · rcases h with ⟨ha, he⟩
      exact Or.inr (Or.inr (Or.inl ⟨by simpa using ha, he⟩))
    · rcases h with ⟨ha, he⟩
      refine Or.inr (Or.inr (Or.inr ⟨?_, he⟩))
      simpa using ha
  · rintro (h | ⟨ha, he⟩ | ⟨ha, he⟩ | ⟨ha, he⟩)
    · exact Or.inl (Or.inl (Or.inl h))
    · exact Or.inl (Or.inl (Or.inr ⟨by simpa using ha, he⟩))
    · exact Or.inl (Or.inr ⟨by simpa using ha, he⟩)
    · exact Or.inr ⟨by simpa using ha, he⟩

/-- Substring characterisation of JS `includes`. -/
theorem includesSub_iff (s sub : Str) :
    includesSub s sub = true ↔ ∃ u v, s = u ++ sub ++ v := by
  unfold includesSub
  rw [List.any_eq_true]
  constructor
  · rintro ⟨t, hmem, hpre⟩
    have hsuf : t.IsSuffix s := (List.mem_tails _ _).mp hmem
    have hp : sub.IsPrefix t := List.isPrefixOf_iff_prefix.mp hpre
    obtain ⟨v, hv⟩ := hp
    obtain ⟨u, hu⟩ := hsuf
    exact ⟨u, v, by rw [← hu, ← hv, List.append_assoc]⟩
  · rintro ⟨u, v, huv⟩
    refine ⟨sub ++ v, ?_, ?_⟩
    · exact (List.mem_tails _ _).mpr ⟨u, by rw [huv, List.append_assoc]⟩
    · exact List.isPrefixOf_iff_prefix.mpr ⟨v, rfl⟩

/-- The `/\.\.[\\/]/` test is subsumed by `includes('..')`: the source flags
exactly the paths containing the two-character substring `..`. -/
theorem hasPathTraversal_iff (p : Str) :
    hasPathTraversal p = true ↔ includesSub p (str "..") = true := by
  unfold hasPathTraversal
  rw [Bool.or_eq_true]
  constructor
  · rintro (h | h)
    · rw [List.any_eq_true] at h
      obtain ⟨t, hmem, hsh⟩ := h
      rcases t with _ | ⟨a, _ | ⟨b, _ | ⟨e, rest⟩⟩⟩ <;> simp at hsh
      obtain ⟨⟨ha, hb⟩, _⟩ := hsh
      subst ha; subst hb
      unfold includesSub
      rw [List.any_eq_true]
      exact ⟨'.' :: '.' :: e :: rest, hmem, by simp [str, List.isPrefixOf]⟩
    · exact h
  · exact Or.inr

end Validator

namespace Validator

/-- Structural reading of the three absolute-path forms of the source:
Unix `/...`, UNC `\\...`, and drive `X:\...` / `X:/...`. -/
theorem isAbsolutePath_iff (p : Str) :
    isAbsolutePath p = true ↔
      (∃ t, p = '/' :: t)
      ∨ (∃ t, p = '\\' :: '\\' :: t)
      ∨ (∃ c d t, p = c :: ':' :: d :: t ∧ isAsciiLetterChar c = true
          ∧ (d = '\\' ∨ d = '/')) := by
  rcases p with _ | ⟨a, _ | ⟨b, _ | ⟨e, t⟩⟩⟩
  · simp [isAbsolutePath]
  · simp [isAbsolutePath, List.cons.injEq] <;> tauto
  · simp [isAbsolutePath, List.cons.injEq] <;> tauto
  · constructor
    · intro h
      simp only [isAbsolutePath, Bool.or_eq_true, Bool.and_eq_true,
        decide_eq_true_eq] at h
      rcases h with (⟨⟨hl, hb⟩, he⟩ | ⟨ha, hb⟩) | ha
      · exact Or.inr (Or.inr ⟨a, e, t, by rw [hb], hl, he⟩)
      · exact Or.inr (Or.inl ⟨e :: t, by rw [ha, hb]⟩)
      · exact Or.inl ⟨b :: e :: t, by rw [ha]⟩
    · intro h
      simp only [isAbsolutePath, Bool.or_eq_true, Bool.and_eq_true,
        decide_eq_true_eq]
      rcases h with ⟨t', ht⟩ | ⟨t', ht⟩ | ⟨c, d, t', ht, hc, hd⟩
      · injection ht with ha _
        exact Or.inr ha
      · injection ht with ha ht2
        injection ht2 with hb _
        exact Or.inl (Or.inr ⟨ha, hb⟩)
      · injection ht with ha ht2
        injection ht2 with hb ht3
        injection ht3 with he _
        exact Or.inl (Or.inl ⟨⟨by rw [ha]; exact hc, hb⟩, by rw [he]; exact hd⟩)

/-- `isValidPathFormat` fails exactly on paths holding a forbidden or
control character. -/
theorem isValidPathFormat_false_iff (p : Str) :
    isValidPathFormat p = false ↔
      ∃ c ∈ p, c = '<' ∨ c = '>' ∨ c = ':' ∨ c = '"' ∨ c = '|' ∨ c = '?'
        ∨ c = '*' ∨ c.toNat ≤ 31 := by
  unfold isValidPathFormat
  simp only [Bool.not_eq_false', List.any_eq_true, Bool.or_eq_true,
    decide_eq_true_eq]
  constructor <;> rintro ⟨c, hc, h⟩ <;> exact ⟨c, hc, by tauto⟩

theorem mem_validateSearch (regexOk : Str → Bool) (e q : Str) (pat : Option Str) :
    e ∈ validateSearch regexOk q pat ↔
      (q = [] ∧ e = QUERY_REQUIRED)
      ∨ (q ≠ [] ∧ q.length < 2 ∧ e = QUERY_TOO_SHORT)
      ∨ (q ≠ [] ∧ 200 < q.length ∧ e = QUERY_TOO_LONG)
      ∨ (∃ s, pat = some s ∧ s ≠ [] ∧ 200 < s.length ∧ e = PATTERN_TOO_LONG)
      ∨ (∃ s, pat = some s ∧ s ≠ [] ∧ regexOk s = false ∧ e = INVALID_PATTERN) := by
  rcases pat with _ | s
  · by_cases hq : q = [] <;>
      simp [validateSearch, hq, mem_ite_singleton] <;> tauto
  · by_cases hs : s = []
    · by_cases hq : q = [] <;>
        simp [validateSearch, hq, hs, mem_ite_singleton] <;> tauto
    · by_cases hq : q = [] <;>
        simp [validateSearch, hq, hs, mem_ite_singleton, List.mem_append,
          Bool.not_eq_true] <;> tauto

end Validator

/-- C7: validation of parsed commands enforces exactly the claimed rules,
accumulating all violations: for FileRead paths and FileList directories,
the error list contains the length error iff the path exceeds 500
characters, the absolute-path error iff the path has Unix, UNC or drive
absolute form, the traversal error iff the path contains the substring
`..`, and the format error iff the path holds a forbidden or control
character; for Search, the query-length errors enforce length in [2,200]
and a nonempty pattern is flagged iff it exceeds 200 characters or fails to
compile (oracle `regexOk`); a path violating several rules yields all their
errors in one list; and validating FileRead with path `../../etc/passwd`
yields the PATH_TRAVERSAL_DETECTED error. -/
theorem command_validation_rules (regexOk : Str → Bool) :
    (∀ raw p : Str,
      (Validator.PATH_TOO_LONG ∈ (Validator.validate regexOk (.fileRead raw p)).errors
        ↔ 500 < p.length)
      ∧ (Validator.ABSOLUTE_PATH_NOT_ALLOWED
            ∈ (Validator.validate regexOk (.fileRead raw p)).errors
          ↔ (∃ t, p = '/' :: t) ∨ (∃ t, p = '\\' :: '\\' :: t)
            ∨ (∃ c d t, p = c :: ':' :: d :: t ∧ Validator.isAsciiLetterChar c = true
                ∧ (d = '\\' ∨ d = '/')))
      ∧ (Validator.PATH_TRAVERSAL_DETECTED
            ∈ (Validator.validate regexOk (.fileRead raw p)).errors
          ↔ ∃ u v, p = u ++ str ".." ++ v)
      ∧ (Validator.INVALID_PATH_FORMAT
            ∈ (Validator.validate regexOk (.fileRead raw p)).errors
          ↔ ∃ c ∈ p, c = '<' ∨ c = '>' ∨ c = ':' ∨ c = '"' ∨ c = '|' ∨ c = '?'
              ∨ c = '*' ∨ c.toNat ≤ 31))
    ∧ (∀ raw d : Str,
      (Validator.PATH_TOO_LONG ∈ (Validator.validate regexOk (.fileList raw d)).errors
        ↔ 500 < d.length)
      ∧ (Validator.PATH_TRAVERSAL_DETECTED
            ∈ (Validator.validate regexOk (.fileList raw d)).errors
          ↔ ∃ u v, d = u ++ str ".." ++ v))
    ∧ (∀ raw q : Str, ∀ pat : Option Str,
      (Validator.QUERY_TOO_SHORT ∈ (Validator.validate regexOk (.search raw q pat)).errors
        ↔ q ≠ [] ∧ q.length < 2)
      ∧ (Validator.QUERY_TOO_LONG ∈ (Validator.validate regexOk (.search raw q pat)).errors
        ↔ 200 < q.length)
      ∧ (Validator.PATTERN_TOO_LONG ∈ (Validator.validate regexOk (.search raw q pat)).errors
        ↔ ∃ s, pat = some s ∧ 200 < s.length)
      ∧ (Validator.INVALID_PATTERN ∈ (Validator.validate regexOk (.search raw q pat)).errors
        ↔ ∃ s, pat = some s ∧ s ≠ [] ∧ regexOk s = false))
    ∧ (Validator.validate regexOk (.fileRead (str "cmd") (str "/a/../b<"))).errors
        = [Validator.ABSOLUTE_PATH_NOT_ALLOWED, Validator.PATH_TRAVERSAL_DETECTED,
           Validator.INVALID_PATH_FORMAT]
    ∧ Validator.PATH_TRAVERSAL_DETECTED
        ∈ (Validator.validate regexOk
            (.fileRead (str "read ../../etc/passwd") (str "../../etc/passwd"))).errors := by
  have herrR : ∀ raw p : Str,
      (Validator.validate regexOk (.fileRead raw p)).errors
        = Validator.validatePath p false := fun _ _ => rfl
  refine ⟨?_, ?_, ?_, ?_, ?_⟩
  case refine_4 =>
    have h : (Validator.validate regexOk (.fileRead (str "cmd") (str "/a/../b<"))).errors
        = Validator.validatePath (str "/a/../b<") false := rfl
    rw [h]
    decide
  case refine_5 =>
    have h : (Validator.validate regexOk
          (.fileRead (str "read ../../etc/passwd") (str "../../etc/passwd"))).errors
        = Validator.validatePath (str "../../etc/passwd") false := rfl
    rw [h]
    decide
  · intro raw p
    by_cases hp : p = []
    · subst hp
      refine ⟨?_, ?_, ?_, ?_⟩ <;>
        simp [herrR, Validator.validatePath,
          show str ".." = ['.', '.'] from rfl] <;> decide
    · rw [herrR] at *
      refine ⟨?_, ?_, ?_, ?_⟩
      · rw [Validator.mem_validatePath _ _ _ hp]
        constructor
        · rintro (⟨h, _⟩ | ⟨_, he⟩ | ⟨_, he⟩ | ⟨_, he⟩)
          · exact h
          · exact absurd he (by decide)
          · exact absurd he (by decide)
          · exact absurd he (by decide)
        · intro h; exact Or.inl ⟨h, rfl⟩
      · rw [Validator.mem_validatePath _ _ _ hp]
        constructor
        · rintro (⟨_, he⟩ | ⟨h, _⟩ | ⟨_, he⟩ | ⟨_, he⟩)
          · exact absurd he (by decide)
          · exact (Validator.isAbsolutePath_iff p).mp h
          · exact absurd he (by decide)
          · exact absurd he (by decide)
        · intro h
          exact Or.inr (Or.inl ⟨(Validator.isAbsolutePath_iff p).mpr h, rfl⟩)
      · rw [Validator.mem_validatePath _ _ _ hp]
        constructor
        · rintro (⟨_, he⟩ | ⟨_, he⟩ | ⟨h, _⟩ | ⟨_, he⟩)
          · exact absurd he (by decide)
          · exact absurd he (by decide)
          · exact (Validator.includesSub_iff p (str "..")).mp
              ((Validator.hasPathTraversal_iff p).mp h)
          · exact absurd he (by decide)
        · intro h
          exact Or.inr (Or.inr (Or.inl
            ⟨(Validator.hasPathTraversal_iff p).mpr
              ((Validator.includesSub_iff p (str "..")).mpr h), rfl⟩))
      · rw [Validator.mem_validatePath _ _ _ hp]
        constructor
        · rintro (⟨_, he⟩ | ⟨_, he⟩ | ⟨_, he⟩ | ⟨h, _⟩)
          · exact absurd he (by decide)
          · exact absurd he (by decide)
          · exact absurd he (by decide)
          · exact (Validator.isValidPathFormat_false_iff p).mp h
        · intro h
          exact Or.inr (Or.inr (Or.inr
            ⟨(Validator.isValidPathFormat_false_iff p).mpr h, rfl⟩))
  · intro raw d
    by_cases hd : d = []
    · subst hd
      constructor <;>
        simp [Validator.validate, Validator.validatePath,
          show str ".." = ['.', '.'] from rfl] <;> decide
    · have herrL : (Validator.validate regexOk (.fileList raw d)).errors
          = Validator.validatePath d true := by
        simp [Validator.validate, hd]
      constructor
      · rw [herrL, Validator.mem_validatePath _ _ _ hd]
        constructor
        · rintro (⟨h, _⟩ | ⟨_, he⟩ | ⟨_, he⟩ | ⟨_, he⟩)
          · exact h
          · exact absurd he (by decide)
          · exact absurd he (by decide)
          · exact absurd he (by decide)
        · intro h; exact Or.inl ⟨h, rfl⟩
      · rw [herrL, Validator.mem_validatePath _ _ _ hd]
        constructor
        · rintro (⟨_, he⟩ | ⟨_, he⟩ | ⟨h, _⟩ | ⟨_, he⟩)
          · exact absurd he (by decide)
          · exact absurd he (by decide)
          · exact (Validator.includesSub_iff d (str "..")).mp
              ((Validator.hasPathTraversal_iff d).mp h)
          · exact absurd he (by decide)
        · intro h
          exact Or.inr (Or.inr (Or.inl
            ⟨(Validator.hasPathTraversal_iff d).mpr
              ((Validator.includesSub_iff d (str "..")).mpr h), rfl⟩))
  · intro raw q pat
    have herrS : (Validator.validate regexOk (.search raw q pat)).errors
        = Validator.validateSearch regexOk q pat := rfl
    refine ⟨?_, ?_, ?_, ?_⟩
    · rw [herrS, Validator.mem_validateSearch]
      constructor
      · rintro (⟨_, he⟩ | ⟨h1, h2, _⟩ | ⟨_, _, he⟩ | ⟨s, _, _, _, he⟩ | ⟨s, _, _, _, he⟩)
        · exact absurd he (by decide)
        · exact ⟨h1, h2⟩
        · exact absurd he (by decide)
        · exact absurd he (by decide)
        · exact absurd he (by decide)
      · rintro ⟨h1, h2⟩
        exact Or.inr (Or.inl ⟨h1, h2, rfl⟩)
    · rw [herrS, Validator.mem_validateSearch]
      constructor
      · rintro (⟨hq, he⟩ | ⟨_, _, he⟩ | ⟨_, h, _⟩ | ⟨s, _, _, _, he⟩ | ⟨s, _, _, _, he⟩)
        · exact absurd he (by decide)
        · exact absurd he (by decide)
        · exact h
        · exact absurd he (by decide)
        · exact absurd he (by decide)
      · intro h
        have hq : q ≠ [] := by
          intro hq
          rw [hq] at h
          simp at h
        exact Or.inr (Or.inr (Or.inl ⟨hq, h, rfl⟩))
    · rw [herrS, Validator.mem_validateSearch]
      constructor
      · rintro (⟨_, he⟩ | ⟨_, _, he⟩ | ⟨_, _, he⟩ | ⟨s, hs, _, h, _⟩ | ⟨s, _, _, _, he⟩)
        · exact absurd he (by decide)
        · exact absurd he (by decide)
        · exact absurd he (by decide)
        · exact ⟨s, hs, h⟩
        · exact absurd he (by decide)
      · rintro ⟨s, hs, h⟩
        refine Or.inr (Or.inr (Or.inr (Or.inl ⟨s, hs, ?_, h, rfl⟩)))
        intro hnil
        rw [hnil] at h
        simp at h
    · rw [herrS, Validator.mem_validateSearch]
      constructor
      · rintro (⟨_, he⟩ | ⟨_, _, he⟩ | ⟨_, _, he⟩ | ⟨s, _, _, _, he⟩ | ⟨s, hs, hne, h, _⟩)
        · exact absurd he (by decide)
        · exact absurd he (by decide)
        · exact absurd he (by decide)
        · exact absurd he (by decide)
        · exact ⟨s, hs, hne, h⟩
      · rintro ⟨s, hs, hne, h⟩
        exact Or.inr (Or.inr (Or.inr (Or.inr ⟨s, hs, hne, h, rfl⟩)))

/-- C10: because `hasPathTraversal` also tests `path.includes('..')`, a
FileRead or FileList command whose path contains the two-character substring
`..` anywhere — including inside a plain file name such as `file..txt` —
is reported with the PATH_TRAVERSAL_DETECTED error. -/
theorem dotdot_anywhere_flags_traversal (regexOk : Str → Bool) :
    (∀ raw p : Str, includesSub p (str "..") = true →
      Validator.PATH_TRAVERSAL_DETECTED
        ∈ (Validator.validate regexOk (.fileRead raw p)).errors)
    ∧ (∀ raw d : Str, includesSub d (str "..") = true →
      Validator.PATH_TRAVERSAL_DETECTED
        ∈ (Validator.validate regexOk (.fileList raw d)).errors) := by
  constructor
  · intro raw p h
    have hp : p ≠ [] := by
      intro hnil
      rw [hnil] at h
      exact absurd h (by decide)
    have herr : (Validator.validate regexOk (.fileRead raw p)).errors
        = Validator.validatePath p false := rfl
    rw [herr, Validator.mem_validatePath _ _ _ hp]
    exact Or.inr (Or.inr (Or.inl ⟨(Validator.hasPathTraversal_iff p).mpr h, rfl⟩))
  · intro raw d h
    have hd : d ≠ [] := by
      intro hnil
      rw [hnil] at h
      exact absurd h (by decide)
    have herr : (Validator.validate regexOk (.fileList raw d)).errors
        = Validator.validatePath d true := by
      simp [Validator.validate, hd]
    rw [herr, Validator.mem_validatePath _ _ _ hd]
    exact Or.inr (Or.inr (Or.inl ⟨(Validator.hasPathTraversal_iff d).mpr h, rfl⟩))

/-- Witness for C10: the file name `file..txt` — no `../` traversal segment,
just two dots inside a name — is flagged as path traversal. -/
theorem dotdot_anywhere_flags_traversal_witness :
    Validator.PATH_TRAVERSAL_DETECTED
      ∈ (Validator.validate (fun _ => true)
          (.fileRead (str "read file..txt") (str "file..txt"))).errors :=
  (dotdot_anywhere_flags_traversal (fun _ => true)).1
    (str "read file..txt") (str "file..txt") (by decide)

/-! ### RPC client result cache (`workspace-manager.service.ts`)

`executeCommand` is embedded by its caching dataflow: the Redis-backed
cache is an association list (a later `setEx` for the same key shadows the
earlier entry), and the remote round trip — correlation id, WebSocket send,
matching COMMAND_RESPONSE — is summarised by the `remote` result that the
channel would deliver.  `usedChannel` records whether the command was sent
over the socket at all. -/

namespace RpcClient

structure CommandResult where
  success : Bool
  data : Option Str
  error : Option Str
  executionTime : Nat
  fromCache : Bool
deriving DecidableEq, Repr

/-- `getCacheKey` of the source: only FileRead, FileList and Status have a
cache key; the default arm returns the empty string. -/
def getCacheKey : Command → Str
  | .fileRead _ p => str "file:" ++ p
  | .fileList _ d => str "list:" ++ d
  | .status _ => str "status:workspace"
  | _ => []

/-- `shouldCache` of the source: cache writes happen for file reads and
directory listings only. -/
def shouldCache : Command → Bool
  | .fileRead _ _ => true
  | .fileList _ _ => true
  | _ => false

abbrev Cache := List (Str × CommandResult)

def cacheGet (cache : Cache) (key : Str) : Option CommandResult :=
  match cache.find? (fun e => e.1 == key) with
  | some e => some e.2
  | none => none

/-- `getFromCache`: an empty key always misses; a hit is tagged
`fromCache := true`. -/
def getFromCache (cache : Cache) (key : Str) : Option CommandResult :=
  if key = [] then none
  else (cacheGet cache key).map fun r => { r with fromCache := true }

/-- `setCache`: an empty key writes nothing. -/
def setCache (cache : Cache) (key : Str) (r : CommandResult) : Cache :=
  if key = [] then cache else (key, r) :: cache

structure ExecOutcome where
  result : CommandResult
  cache : Cache
  usedChannel : Bool
deriving DecidableEq, Repr

/-- The cache dataflow of `executeCommand`: look the command up first; a hit
returns immediately without using the channel; on a miss the command goes
over the channel and a successful result of a `shouldCache` command is
written back. -/
def executeCommand (cache : Cache) (cmd : Command) (remote : CommandResult) :
    ExecOutcome :=
  let key := getCacheKey cmd
  match getFromCache cache key with
  | some r => ⟨r, cache, false⟩
  | none =>
    ⟨remote,
     if remote.success && shouldCache cmd then setCache cache key remote else cache,
     true⟩

end RpcClient

/-- C4 (amended): FileRead, FileList and Status commands are first looked up
in the result cache keyed by command shape, and a hit is returned
immediately, tagged as a cache hit, without using the channel.  A
successful non-cached result is written to the cache only for FileRead and
FileList — `shouldCache` excludes Status, so Status results are looked up
but never written — failed results are never written, and Search results
are neither looked up nor written (their cache key is empty). -/
theorem cache_lookup_and_write_policy :
    (∀ (cache : RpcClient.Cache) (cmd : Command)
        (remote r : RpcClient.CommandResult),
      RpcClient.getFromCache cache (RpcClient.getCacheKey cmd) = some r →
      RpcClient.executeCommand cache cmd remote = ⟨r, cache, false⟩
      ∧ r.fromCache = true)
    ∧ (∀ (cache : RpcClient.Cache) (raw p : Str) (remote : RpcClient.CommandResult),
      RpcClient.getFromCache cache
          (RpcClient.getCacheKey (.fileRead raw p)) = none →
      remote.success = true →
      RpcClient.executeCommand cache (.fileRead raw p) remote
        = ⟨remote, (str "file:" ++ p, remote) :: cache, true⟩)
    ∧ (∀ (cache : RpcClient.Cache) (raw d : Str) (remote : RpcClient.CommandResult),
      RpcClient.getFromCache cache
          (RpcClient.getCacheKey (.fileList raw d)) = none →
      remote.success = true →
      RpcClient.executeCommand cache (.fileList raw d) remote
        = ⟨remote, (str "list:" ++ d, remote) :: cache, true⟩)
    ∧ (∀ (cache : RpcClient.Cache) (cmd : Command) (remote : RpcClient.CommandResult),
      RpcClient.getFromCache cache (RpcClient.getCacheKey cmd) = none →
      remote.success = false →
      RpcClient.executeCommand cache cmd remote = ⟨remote, cache, true⟩)
    ∧ (∀ (cache : RpcClient.Cache) (raw : Str) (remote : RpcClient.CommandResult),
      RpcClient.getFromCache cache (RpcClient.getCacheKey (.status raw)) = none →
      RpcClient.executeCommand cache (.status raw) remote = ⟨remote, cache, true⟩)
    ∧ (∀ (cache : RpcClient.Cache) (raw q : Str) (pat : Option Str)
        (remote : RpcClient.CommandResult),
      RpcClient.executeCommand cache (.search raw q pat) remote
        = ⟨remote, cache, true⟩) := by
  refine ⟨?_, ?_, ?_, ?_, ?_, ?_⟩
  · intro cache cmd remote r hhit
    constructor
    · simp only [RpcClient.executeCommand, hhit]
    · by_cases hk : RpcClient.getCacheKey cmd = []
      · rw [RpcClient.getFromCache, if_pos hk] at hhit
        exact absurd hhit (by simp)
      · rw [RpcClient.getFromCache, if_neg hk, Option.map_eq_some'] at hhit
        obtain ⟨r', _, hr⟩ := hhit
        rw [← hr]
  · intro cache raw p remote hmiss hs
    simp only [RpcClient.getCacheKey,
      show str "file:" = 'f' :: str "ile:" from rfl, List.cons_append] at hmiss
    simp [RpcClient.executeCommand, RpcClient.getCacheKey, hmiss, hs,
      RpcClient.shouldCache, RpcClient.setCache,
      show str "file:" = 'f' :: str "ile:" from rfl]
  · intro cache raw d remote hmiss hs
    simp only [RpcClient.getCacheKey,
      show str "list:" = 'l' :: str "ist:" from rfl, List.cons_append] at hmiss
    simp [RpcClient.executeCommand, RpcClient.getCacheKey, hmiss, hs,
      RpcClient.shouldCache, RpcClient.setCache,
      show str "list:" = 'l' :: str "ist:" from rfl]
  · intro cache cmd remote hmiss hs
    simp [RpcClient.executeCommand, hmiss, hs]
  · intro cache raw remote hmiss
    simp [RpcClient.executeCommand, hmiss, RpcClient.shouldCache]
  · intro cache raw q pat remote
    simp [RpcClient.executeCommand, RpcClient.getFromCache, RpcClient.getCacheKey,
      RpcClient.shouldCache]

/-- Witness for C4 (amended) at a concrete FileRead miss: the successful
result is written back under the key `file:a.txt`. -/
theorem cache_lookup_and_write_policy_witness :
    RpcClient.executeCommand [] (.fileRead (str "read a.txt") (str "a.txt"))
        ⟨true, some (str "data"), none, 5, false⟩
      = ⟨⟨true, some (str "data"), none, 5, false⟩,
         [(str "file:" ++ str "a.txt", ⟨true, some (str "data"), none, 5, false⟩)],
         true⟩ :=
  cache_lookup_and_write_policy.2.1 [] (str "read a.txt") (str "a.txt")
    ⟨true, some (str "data"), none, 5, false⟩ (by decide) rfl

/-- C4 counterexample to the claim as stated: a successful, non-cached
Status result is NOT written to the cache — `shouldCache` returns false for
Status even though Status results are looked up under `status:workspace`. -/
theorem status_result_not_written_to_cache :
    RpcClient.getFromCache []
        (RpcClient.getCacheKey (.status (str "status"))) = none
    ∧ (RpcClient.executeCommand [] (.status (str "status"))
        ⟨true, some (str "ok"), none, 5, false⟩).usedChannel = true
    ∧ (RpcClient.executeCommand [] (.status (str "status"))
        ⟨true, some (str "ok"), none, 5, false⟩).result.success = true
    ∧ (RpcClient.executeCommand [] (.status (str "status"))
        ⟨true, some (str "ok"), none, 5, false⟩).cache = [] := by
  decide

/-! ### Command parser (`command-parser.service.ts`)

The five regexes are modelled as matcher functions on the normalized
message (`trim` + collapse of whitespace runs, as `normalizeMessage` of the
source).  Normalized messages contain no newline, so the `.`-excludes-
newline subtlety of JS regexes cannot be observed by `parse`.  The `/i`
flag is modelled by lowercasing the candidate before comparing it with the
(lowercase) keyword; captures keep the original characters.  Greedy `\s+`
with the engine's backtracking (giving one whitespace character back to a
`(.+)` when nothing else remains) and the lazy `(.+?)` of the SEARCH regex
(shortest query such that the rest matches the optional ` in ` /
` pattern:` group or the end) are reproduced explicitly. -/

namespace Parser

structure ParseResult where
  success : Bool
  command : Option Command
  error : Option Str
deriving DecidableEq, Repr

def toLowerStr (s : Str) : Str := s.map Char.toLower

/-- `message.trim().replace(/\s+/g, ' ')`: the collapse step replaces every
whitespace run with a single space (the flag records whether the current
character continues a run whose space was already emitted). -/
def collapseWsGo : Bool → Str → Str
  | _, [] => []
  | prevWs, c :: rest =>
    if isWsChar c then
      if prevWs then collapseWsGo true rest
      else ' ' :: collapseWsGo true rest
    else c :: collapseWsGo false rest

def collapseWs (s : Str) : Str := collapseWsGo false s

def normalizeMessage (msg : Str) : Str := collapseWs (trimChars msg)

/-- Case-insensitive keyword prefix: consumes `kw` (given lowercase) off the
front of `s` and returns the remainder. -/
def stripPrefixCI (kw s : Str) : Option Str :=
  if toLowerStr (s.take kw.length) = kw then some (s.drop kw.length) else none

/-- `^(?:kw1|kw2|…)\s+(.+)$`: try the alternatives in order; after the
keyword there must be at least one whitespace character; the capture is the
remainder after the greedy `\s+` (backtracking one character when the whole
remainder is whitespace, since `(.+)` needs a character). -/
def matchKwWsPlus (kws : List Str) (s : Str) : Option Str :=
  match kws with
  | [] => none
  | kw :: rest =>
    match stripPrefixCI kw s with
    | some r =>
      match r with
      | c :: _ =>
        if isWsChar c then
          let body := r.dropWhile isWsChar
          some (if body = [] then r.drop (r.length - 1) else body)
        else matchKwWsPlus rest s
      | [] => matchKwWsPlus rest s
    | none => matchKwWsPlus rest s

/-- `^(?:kw1|kw2|…)\s*(.*)$`: like above but the whitespace and the capture
may be empty. -/
def matchKwWsStar (kws : List Str) (s : Str) : Option Str :=
  match kws with
  | [] => none
  | kw :: rest =>
    match stripPrefixCI kw s with
    | some r => some (r.dropWhile isWsChar)
    | none => matchKwWsStar rest s

/-- `(?:in|pattern:)\s*(.+)` after the literal: the pattern capture is the
remainder after the greedy `\s*` (backtracking one character when only
whitespace remains). -/
def litThenCapture (lit rem1 : Str) : Option Str :=
  match stripPrefixCI lit rem1 with
  | some r2 =>
    if r2 = [] then none
    else
      let p := r2.dropWhile isWsChar
      some (if p = [] then r2.drop (r2.length - 1) else p)
  | none => none

/-- `(?:\s+(?:in|pattern:)\s*(.+))` — the optional tail of the SEARCH
regex, matched against everything after the lazy query capture. -/
def matchSearchTail (rem : Str) : Option Str :=
  match rem with
  | c :: _ =>
    if isWsChar c then
      let rem1 := rem.dropWhile isWsChar
      match litThenCapture (str "in") rem1 with
      | some p => some p
      | none => litThenCapture (str "pattern:") rem1
    else none
  | [] => none

/-- The lazy `(.+?)` of the SEARCH regex: the shortest nonempty query
prefix whose remainder matches the optional group (tried first, as the
regex engine does) or the end of the string. -/
def searchSplit : Str → Str → Str × Option Str
  | qAcc, [] => (qAcc.reverse, none)
  | qAcc, c :: rest =>
    match matchSearchTail rest with
    | some pat => ((c :: qAcc).reverse, some pat)
    | none =>
      match rest with
      | [] => ((c :: qAcc).reverse, none)
      | _ :: _ => searchSplit (c :: qAcc) rest

/-- `COMMAND_PATTERNS.FILE_READ` + `createFileReadCommand` (capture trimmed). -/
def matchFileRead (n : Str) : Option Command :=
  (matchKwWsPlus [str "read", str "show", str "cat", str "file", str "open"] n).map
    fun cap => Command.fileRead n (trimChars cap)

/-- `COMMAND_PATTERNS.FILE_LIST` + `createFileListCommand`
(`match[1]?.trim() || '.'`). -/
def matchFileList (n : Str) : Option Command :=
  (matchKwWsStar [str "list", str "ls", str "dir", str "files"] n).map
    fun cap =>
      let d := trimChars cap
      Command.fileList n (if d = [] then str "." else d)

/-- `COMMAND_PATTERNS.SEARCH` + `createSearchCommand` (query and optional
pattern trimmed). -/
def matchSearch (n : Str) : Option Command :=
  (matchKwWsPlus [str "search", str "find", str "grep"] n).map fun body =>
    let qp := searchSplit [] body
    Command.search n (trimChars qp.1) (qp.2.map trimChars)

/-- `COMMAND_PATTERNS.STATUS`. -/
def matchStatus (n : Str) : Option Command :=
  if toLowerStr n = str "status" ∨ toLowerStr n = str "workspace"
      ∨ toLowerStr n = str "info" then
    some (Command.status n)
  else none

/-- `COMMAND_PATTERNS.HELP`. -/
def matchHelp (n : Str) : Option Command :=
  if toLowerStr n = str "help" ∨ toLowerStr n = str "commands"
      ∨ toLowerStr n = str "?" then
    some (Command.help n)
  else none

/-- `matchCommand` of the source: the five matchers in fixed order, first
match wins. -/
def matchCommand (n : Str) : Option Command :=
  match matchFileRead n with
  | some c => some c
  | none =>
    match matchFileList n with
    | some c => some c
    | none =>
      match matchSearch n with
      | some c => some c
      | none =>
        match matchStatus n with
        | some c => some c
        | none => matchHelp n

def emptyMessageError : Str := str "Empty message"

def unknownCommandError : Str :=
  str "Unknown command. Type \"help\" to see available commands."

/-- `parse` of the source. -/
def parse (msg : Str) : ParseResult :=
  let normalized := normalizeMessage msg
  if normalized = [] then
    ⟨false, none, some emptyMessageError⟩
  else
    match matchCommand normalized with
    | some c => ⟨true, some c, none⟩
    | none => ⟨false, none, some unknownCommandError⟩

end Parser

/-- C8 (amended): `parse` is a total function returning exactly one of a
command or an error, never both; the five matchers are tried in the fixed
order FileRead, FileList, Search, Status, Help with the first match
winning; an input that is nonempty after normalization and matches no
pattern yields the unknown-command error, which includes the hint to type
help; an input that is empty after normalization yields the `Empty message`
error instead (without the hint — see the counterexample). -/
theorem parse_total_and_first_match :
    (∀ msg : Str,
      (∃ c, Parser.parse msg = ⟨true, some c, none⟩)
      ∨ (∃ e, Parser.parse msg = ⟨false, none, some e⟩))
    ∧ (∀ msg : Str, Parser.normalizeMessage msg ≠ [] →
        Parser.matchCommand (Parser.normalizeMessage msg) = none →
        Parser.parse msg = ⟨false, none, some Parser.unknownCommandError⟩
        ∧ includesSub Parser.unknownCommandError (str "help") = true)
    ∧ (∀ msg : Str, Parser.normalizeMessage msg = [] →
        Parser.parse msg = ⟨false, none, some Parser.emptyMessageError⟩)
    ∧ (∀ (msg : Str) (c : Command),
        Parser.matchFileRead (Parser.normalizeMessage msg) = some c →
        Parser.parse msg = ⟨true, some c, none⟩)
    ∧ (∀ (msg : Str) (c : Command),
        Parser.matchFileRead (Parser.normalizeMessage msg) = none →
        Parser.matchFileList (Parser.normalizeMessage msg) = some c →
        Parser.parse msg = ⟨true, some c, none⟩)
    ∧ (∀ (msg : Str) (c : Command),
        Parser.matchFileRead (Parser.normalizeMessage msg) = none →
        Parser.matchFileList (Parser.normalizeMessage msg) = none →
        Parser.matchSearch (Parser.normalizeMessage msg) = some c →
        Parser.parse msg = ⟨true, some c, none⟩)
    ∧ (∀ (msg : Str) (c : Command),
        Parser.matchFileRead (Parser.normalizeMessage msg) = none →
        Parser.matchFileList (Parser.normalizeMessage msg) = none →
        Parser.matchSearch (Parser.normalizeMessage msg) = none →
        Parser.matchStatus (Parser.normalizeMessage msg) = some c →
        Parser.parse msg = ⟨true, some c, none⟩)
    ∧ (∀ (msg : Str) (c : Command),
        Parser.matchFileRead (Parser.normalizeMessage msg) = none →
        Parser.matchFileList (Parser.normalizeMessage msg) = none →
        Parser.matchSearch (Parser.normalizeMessage msg) = none →
        Parser.matchStatus (Parser.normalizeMessage msg) = none →
        Parser.matchHelp (Parser.normalizeMessage msg) = some c →
        Parser.parse msg = ⟨true, some c, none⟩) := by
  have hnonempty : ∀ msg : Str, Parser.normalizeMessage msg ≠ [] →
      ∀ c : Command, Parser.matchCommand (Parser.normalizeMessage msg) = some c →
      Parser.parse msg = ⟨true, some c, none⟩ := by
    intro msg hn c hc
    simp [Parser.parse, hn, hc]
  have hmatchnil : Parser.matchCommand ([] : Str) = none := by decide
  refine ⟨?_, ?_, ?_, ?_, ?_, ?_, ?_, ?_⟩
  · intro msg
    by_cases hn : Parser.normalizeMessage msg = []
    · exact Or.inr ⟨Parser.emptyMessageError, by simp [Parser.parse, hn]⟩
    · rcases hc : Parser.matchCommand (Parser.normalizeMessage msg) with _ | c
      · exact Or.inr ⟨Parser.unknownCommandError, by simp [Parser.parse, hn, hc]⟩
      · exact Or.inl ⟨c, by simp [Parser.parse, hn, hc]⟩
  · intro msg hn hc
    exact ⟨by simp [Parser.parse, hn, hc], by decide⟩
  · intro msg hn
    simp [Parser.parse, hn]
  · intro msg c h
    have hn : Parser.normalizeMessage msg ≠ [] := by
      intro hnil
      rw [hnil] at h
      simp [show Parser.matchFileRead ([] : Str) = none from by decide] at h
    exact hnonempty msg hn c (by simp [Parser.matchCommand, h])
  · intro msg c h1 h2
    have hn : Parser.normalizeMessage msg ≠ [] := by
      intro hnil
      rw [hnil] at h2
      simp [show Parser.matchFileList ([] : Str) = none from by decide] at h2
    exact hnonempty msg hn c (by simp [Parser.matchCommand, h1, h2])
  · intro msg c h1 h2 h3
    have hn : Parser.normalizeMessage msg ≠ [] := by
      intro hnil
      rw [hnil] at h3
      simp [show Parser.matchSearch ([] : Str) = none from by decide] at h3
    exact hnonempty msg hn c (by simp [Parser.matchCommand, h1, h2, h3])
  · intro msg c h1 h2 h3 h4
    have hn : Parser.normalizeMessage msg ≠ [] := by
      intro hnil
      rw [hnil] at h4
      simp [show Parser.matchStatus ([] : Str) = none from by decide] at h4
    exact hnonempty msg hn c (by simp [Parser.matchCommand, h1, h2, h3, h4])
  · intro msg c h1 h2 h3 h4 h5
    have hn : Parser.normalizeMessage msg ≠ [] := by
      intro hnil
      rw [hnil] at h5
      simp [show Parser.matchHelp ([] : Str) = none from by decide] at h5
    exact hnonempty msg hn c (by simp [Parser.matchCommand, h1, h2, h3, h4, h5])

/-- Witness for C8 (amended): the unmatched input `zzz` yields the
unknown-command error, whose text hints at typing help. -/
theorem parse_total_and_first_match_witness :
    Parser.parse (str "zzz") = ⟨false, none, some Parser.unknownCommandError⟩
    ∧ includesSub Parser.unknownCommandError (str "help") = true :=
  parse_total_and_first_match.2.1 (str "zzz") (by decide) (by decide)

/-- C8 counterexample to the claim as stated: the empty input matches no
pattern, yet its error is `Empty message`, which does not include a hint to
type help — the unknown-command error with the hint is produced only for
inputs that are nonempty after normalization. -/
theorem empty_input_error_lacks_help_hint :
    Parser.normalizeMessage (str "") = []
    ∧ Parser.matchCommand (Parser.normalizeMessage (str "")) = none
    ∧ Parser.parse (str "") = ⟨false, none, some Parser.emptyMessageError⟩
    ∧ includesSub Parser.emptyMessageError (str "help") = false := by
  decide

/-! ### Outbound message chunking (`whatsapp-sender.service.ts`)

`chunkMessage` splits an over-long message, preferring the last newline
at index ≥ `0.7 × 4096` (i.e. index ≥ 2868, since `lastIndexOf` returns an
integer and `4096 * 0.7 = 2867.2`), then the last space there, else a hard
cut at 4096; both pieces are `trim()`ed.  `sendChunkedMessage` prepends
`"[Part {i+1}/{N}]\n\n"` to every chunk whenever there is more than one
chunk — including the first — and sends them in order;
`sentChunkTexts` is the list of texts handed to `sendSingleMessage`
(delivery succeeding). -/

namespace Sender

def MAX_MESSAGE_LENGTH : Nat := 4096

/-- JS `s.lastIndexOf(c, pos)`: the largest index `≤ pos` holding `c`. -/
def lastIndexOfAt (c : Char) (s : Str) (pos : Nat) : Option Nat :=
  let t := s.take (pos + 1)
  if c ∈ t then some (t.length - 1 - t.reverse.findIdx (· == c)) else none

def chunkSplitSpace (s : Str) : Nat :=
  match lastIndexOfAt ' ' s MAX_MESSAGE_LENGTH with
  | some i => if 2868 ≤ i then i + 1 else MAX_MESSAGE_LENGTH
  | none => MAX_MESSAGE_LENGTH

def chunkSplitIdx (s : Str) : Nat :=
  match lastIndexOfAt '\n' s MAX_MESSAGE_LENGTH with
  | some i => if 2868 ≤ i then i + 1 else chunkSplitSpace s
  | none => chunkSplitSpace s

theorem one_le_chunkSplitIdx (s : Str) : 1 ≤ chunkSplitIdx s := by
  have hsp : 1 ≤ chunkSplitSpace s := by
    unfold chunkSplitSpace
    rcases lastIndexOfAt ' ' s MAX_MESSAGE_LENGTH with _ | j
    · simp [MAX_MESSAGE_LENGTH]
    · simp only
      split
      · omega
      · simp [MAX_MESSAGE_LENGTH]
  unfold chunkSplitIdx
  rcases lastIndexOfAt '\n' s MAX_MESSAGE_LENGTH with _ | i
  · exact hsp
  · simp only
    split
    · omega
    · exact hsp

/-- `chunkMessage` of the source. -/
def chunkMessage (s : Str) : List Str :=
  if h0 : s = [] then []
  else if h1 : s.length ≤ MAX_MESSAGE_LENGTH then [s]
  else
    trimChars (s.take (chunkSplitIdx s))
      :: chunkMessage (trimChars (s.drop (chunkSplitIdx s)))
termination_by s.length
decreasing_by
  have ha := one_le_chunkSplitIdx s
  have hb := trimChars_length_le (s.drop (chunkSplitIdx s))
  have hc := List.length_drop (chunkSplitIdx s) s
  have hd : ¬ s.length ≤ MAX_MESSAGE_LENGTH := h1
  unfold MAX_MESSAGE_LENGTH at hd
  omega

/-- `"[Part {i}/{n}]\n\n"`. -/
def partHeader (i n : Nat) : Str :=
  str "[Part " ++ natStr i ++ str "/" ++ natStr n ++ str "]\n\n"

/-- The loop of `sendChunkedMessage`: text `i` (0-based) is the chunk with
header `[Part {i+1}/{N}]` prepended whenever `N > 1`. -/
def chunkTextsGo (N : Nat) : Nat → List Str → List Str
  | _, [] => []
  | i, ch :: rest =>
    ((if 1 < N then partHeader (i + 1) N else []) ++ ch) :: chunkTextsGo N (i + 1) rest

/-- The texts handed to `sendSingleMessage` by `sendChunkedMessage`, in
order (all sends succeeding). -/
def sentChunkTexts (msg : Str) : List Str :=
  chunkTextsGo (chunkMessage msg).length 0 (chunkMessage msg)

end Sender

/-- `s` is its chunks in order, interleaved only with whitespace: the
splitting drops whitespace at chunk boundaries and reorders or loses
nothing else. -/
def AllWs (g : Str) : Prop := ∀ ch ∈ g, isWsChar ch = true

inductive WsInterleaved : Str → List Str → Prop where
  | nil : ∀ g, AllWs g → WsInterleaved g []
  | cons : ∀ g chunk rest cs, AllWs g → WsInterleaved rest cs →
      WsInterleaved (g ++ chunk ++ rest) (chunk :: cs)

theorem allWs_append (a b : Str) (ha : AllWs a) (hb : AllWs b) : AllWs (a ++ b) := by
  intro c hc
  rcases List.mem_append.mp hc with h | h
  · exact ha c h
  · exact hb c h

theorem wsInterleaved_ws_append (a : Str) (ha : AllWs a) :
    ∀ {s : Str} {cs : List Str}, WsInterleaved s cs → WsInterleaved (a ++ s) cs := by
  intro s cs h
  induction h with
  | nil g hg => exact .nil (a ++ g) (allWs_append a g ha hg)
  | cons g chunk rest cs hg hrec _ =>
    have h2 := WsInterleaved.cons (a ++ g) chunk rest cs
      (allWs_append a g ha hg) hrec
    simpa [List.append_assoc] using h2

theorem wsInterleaved_append_ws (b : Str) (hb : AllWs b) :
    ∀ {s : Str} {cs : List Str}, WsInterleaved s cs → WsInterleaved (s ++ b) cs := by
  intro s cs h
  induction h with
  | nil g hg => exact .nil (g ++ b) (allWs_append g b hg hb)
  | cons g chunk rest cs hg _ ih =>
    have h2 := WsInterleaved.cons g chunk (rest ++ b) cs hg ih
    simpa [List.append_assoc] using h2

/-- `trim` decomposition: a string is whitespace, its trim, and whitespace. -/
theorem trim_decomp (s : Str) :
    ∃ a b, AllWs a ∧ AllWs b ∧ s = a ++ trimChars s ++ b := by
  refine ⟨s.takeWhile isWsChar,
    ((s.dropWhile isWsChar).reverse.takeWhile isWsChar).reverse, ?_, ?_, ?_⟩
  · intro c hc
    exact List.mem_takeWhile_imp hc
  · intro c hc
    rw [List.mem_reverse] at hc
    exact List.mem_takeWhile_imp hc
  · have hd2 : s.dropWhile isWsChar
        = trimChars s ++ ((s.dropWhile isWsChar).reverse.takeWhile isWsChar).reverse := by
      calc s.dropWhile isWsChar
          = (s.dropWhile isWsChar).reverse.reverse := (List.reverse_reverse _).symm
        _ = ((s.dropWhile isWsChar).reverse.takeWhile isWsChar
              ++ (s.dropWhile isWsChar).reverse.dropWhile isWsChar).reverse := by
            rw [List.takeWhile_append_dropWhile]
        _ = ((s.dropWhile isWsChar).reverse.dropWhile isWsChar).reverse
              ++ ((s.dropWhile isWsChar).reverse.takeWhile isWsChar).reverse := by
            rw [List.reverse_append]
        _ = trimChars s
              ++ ((s.dropWhile isWsChar).reverse.takeWhile isWsChar).reverse := rfl
    calc s = s.takeWhile isWsChar ++ s.dropWhile isWsChar :=
          (List.takeWhile_append_dropWhile _ _).symm
      _ = s.takeWhile isWsChar ++ (trimChars s
            ++ ((s.dropWhile isWsChar).reverse.takeWhile isWsChar).reverse) := by
          rw [← hd2]
      _ = s.takeWhile isWsChar ++ trimChars s
            ++ ((s.dropWhile isWsChar).reverse.takeWhile isWsChar).reverse := by
          rw [List.append_assoc]

theorem wsInterleaved_congr_left {s t : Str} {cs : List Str} (h : s = t)
    (hw : WsInterleaved s cs) : WsInterleaved t cs := h ▸ hw

/-- Every message is its chunk list in order, interleaved only with
whitespace dropped at chunk boundaries by `.trim()`. -/
theorem chunkMessage_interleaves (s : Str) :
    WsInterleaved s (Sender.chunkMessage s) := by
  by_cases h0 : s = []
  · rw [Sender.chunkMessage.eq_def, dif_pos h0]
    subst h0
    exact .nil [] (by intro c hc; cases hc)
  · by_cases h1 : s.length ≤ Sender.MAX_MESSAGE_LENGTH
    · rw [Sender.chunkMessage.eq_def, dif_neg h0, dif_pos h1]
      have hws : AllWs [] := by intro c hc; cases hc
      have h2 := WsInterleaved.cons [] s [] [] hws (.nil [] hws)
      simpa using h2
    · rw [Sender.chunkMessage.eq_def, dif_neg h0, dif_neg h1]
      obtain ⟨a, b, ha, hb, hdec⟩ := trim_decomp (s.take (Sender.chunkSplitIdx s))
      obtain ⟨a2, b2, ha2, hb2, hdec2⟩ :=
        trim_decomp (s.drop (Sender.chunkSplitIdx s))
      have ih := chunkMessage_interleaves
        (trimChars (s.drop (Sender.chunkSplitIdx s)))
      have he2 : a2 ++ (trimChars (s.drop (Sender.chunkSplitIdx s)) ++ b2)
          = s.drop (Sender.chunkSplitIdx s) :=
        (hdec2.trans (List.append_assoc a2 _ b2)).symm
      have hpost := wsInterleaved_congr_left he2
        (wsInterleaved_ws_append a2 ha2 (wsInterleaved_append_ws b2 hb2 ih))
      have hrest := wsInterleaved_ws_append b hb hpost
      have hmain := WsInterleaved.cons a
        (trimChars (s.take (Sender.chunkSplitIdx s)))
        (b ++ s.drop (Sender.chunkSplitIdx s)) _ ha hrest
      have hs : s = a ++ trimChars (s.take (Sender.chunkSplitIdx s))
          ++ (b ++ s.drop (Sender.chunkSplitIdx s)) :=
        ((List.take_append_drop (Sender.chunkSplitIdx s) s).symm.trans
            (congrArg (fun x => x ++ s.drop (Sender.chunkSplitIdx s)) hdec)).trans
          (List.append_assoc _ b _)
      exact wsInterleaved_congr_left hs.symm hmain
termination_by s.length
decreasing_by
  have hA := Sender.one_le_chunkSplitIdx s
  have hB := trimChars_length_le (s.drop (Sender.chunkSplitIdx s))
  have hC := List.length_drop (Sender.chunkSplitIdx s) s
  have hD : ¬ s.length ≤ Sender.MAX_MESSAGE_LENGTH := h1
  unfold Sender.MAX_MESSAGE_LENGTH at hD
  omega

theorem chunkTextsGo_length (N : Nat) (cs : List Str) :
    ∀ k, (Sender.chunkTextsGo N k cs).length = cs.length := by
  induction cs with
  | nil => intro k; rfl
  | cons c rest ih => intro k; simp [Sender.chunkTextsGo, ih]

theorem chunkTextsGo_get (N : Nat) (cs : List Str) :
    ∀ (k i : Nat) (ch : Str), cs.get? i = some ch →
      (Sender.chunkTextsGo N k cs).get? i
        = some ((if 1 < N then Sender.partHeader (k + i + 1) N else []) ++ ch) := by
  induction cs with
  | nil => intro k i ch h; simp at h
  | cons c rest ih =>
    intro k i ch h
    cases i with
    | zero =>
      simp only [List.get?_cons_zero, Option.some.injEq] at h
      subst h
      simp [Sender.chunkTextsGo]
    | succ j =>
      simp only [List.get?_cons_succ] at h
      have h2 := ih (k + 1) j ch h
      have h3 : k + 1 + j = k + (j + 1) := by omega
      rw [h3] at h2
      simpa [Sender.chunkTextsGo] using h2

theorem dropWhile_replicate_nonws (n : Nat) (c : Char) (hc : isWsChar c = false) :
    List.dropWhile isWsChar (List.replicate n c) = List.replicate n c := by
  cases n with
  | zero => rfl
  | succ m => simp [List.replicate_succ, List.dropWhile_cons, hc]

theorem trimChars_replicate (n : Nat) (c : Char) (hc : isWsChar c = false) :
    trimChars (List.replicate n c) = List.replicate n c := by
  unfold trimChars
  rw [dropWhile_replicate_nonws n c hc, List.reverse_replicate,
      dropWhile_replicate_nonws n c hc, List.reverse_replicate]

theorem lastIndexOfAt_replicate_a (c : Char) (hc : c ≠ 'a') (n pos : Nat) :
    Sender.lastIndexOfAt c (List.replicate n 'a') pos = none := by
  unfold Sender.lastIndexOfAt
  simp [List.take_replicate, List.mem_replicate, hc]

theorem chunkSplitIdx_replicate :
    Sender.chunkSplitIdx (List.replicate 4097 'a') = 4096 := by
  unfold Sender.chunkSplitIdx Sender.chunkSplitSpace
  rw [lastIndexOfAt_replicate_a '\n' (by decide) 4097 Sender.MAX_MESSAGE_LENGTH,
      lastIndexOfAt_replicate_a ' ' (by decide) 4097 Sender.MAX_MESSAGE_LENGTH]
  rfl

theorem chunkMessage_replicate_4097 :
    Sender.chunkMessage (List.replicate 4097 'a')
      = [List.replicate 4096 'a', ['a']] := by
  have hne : (List.replicate 4097 'a' : Str) ≠ [] := by
    intro h
    have h2 := congrArg List.length h
    simp only [List.length_replicate, List.length_nil] at h2
    omega
  have hlen : ¬ ((List.replicate 4097 'a' : Str).length ≤ Sender.MAX_MESSAGE_LENGTH) := by
    simp only [List.length_replicate, Sender.MAX_MESSAGE_LENGTH]
    omega
  rw [Sender.chunkMessage.eq_def, dif_neg hne, dif_neg hlen]
  rw [chunkSplitIdx_replicate]
  have htake : (List.replicate 4097 'a' : Str).take 4096 = List.replicate 4096 'a' := by
    rw [List.take_replicate]
    norm_num
  have hdrop : (List.replicate 4097 'a' : Str).drop 4096 = List.replicate 1 'a' := by
    rw [List.drop_replicate]
  rw [htake, hdrop, trimChars_replicate 4096 'a' (by decide),
      trimChars_replicate 1 'a' (by decide)]
  have hne1 : (List.replicate 1 'a' : Str) ≠ [] := by decide
  have hlen1 : (List.replicate 1 'a' : Str).length ≤ Sender.MAX_MESSAGE_LENGTH := by
    simp only [List.length_replicate, Sender.MAX_MESSAGE_LENGTH]
    omega
  rw [Sender.chunkMessage.eq_def, dif_neg hne1, dif_pos hlen1]
  rfl

/-- C5: every outbound message is split into chunks that reproduce the
original text in order, dropping only whitespace at the chunk boundaries
(so never mid-character); the split point prefers the last newline at
index ≥ 2868 (`> 4096 * 0.7`), else the last such space, else a hard cut;
the chunks are sent in order (one text per chunk); and — amending the
claim, which says the prefix goes only on chunks beyond the first — when
there is more than one chunk a `[Part i/N]` prefix is prepended to EVERY
chunk, the first included, while a single chunk is sent without prefix. -/
theorem chunking_properties :
    (∀ msg : Str, WsInterleaved msg (Sender.chunkMessage msg))
    ∧ (∀ msg : Str,
        (Sender.sentChunkTexts msg).length = (Sender.chunkMessage msg).length)
    ∧ (∀ (msg : Str) (i : Nat) (ch : Str),
        1 < (Sender.chunkMessage msg).length →
        (Sender.chunkMessage msg).get? i = some ch →
        (Sender.sentChunkTexts msg).get? i
          = some (Sender.partHeader (i + 1) (Sender.chunkMessage msg).length ++ ch))
    ∧ (∀ msg : Str, (Sender.chunkMessage msg).length ≤ 1 →
        Sender.sentChunkTexts msg = Sender.chunkMessage msg)
    ∧ (∀ (msg : Str) (i : Nat),
        Sender.lastIndexOfAt '\n' msg Sender.MAX_MESSAGE_LENGTH = some i →
        2868 ≤ i → Sender.chunkSplitIdx msg = i + 1)
    ∧ (∀ (msg : Str) (j : Nat),
        Sender.lastIndexOfAt '\n' msg Sender.MAX_MESSAGE_LENGTH = none →
        Sender.lastIndexOfAt ' ' msg Sender.MAX_MESSAGE_LENGTH = some j →
        2868 ≤ j → Sender.chunkSplitIdx msg = j + 1) := by
  refine ⟨chunkMessage_interleaves, ?_, ?_, ?_, ?_, ?_⟩
  · intro msg
    exact chunkTextsGo_length _ _ 0
  · intro msg i ch hN hget
    have h := chunkTextsGo_get (Sender.chunkMessage msg).length
      (Sender.chunkMessage msg) 0 i ch hget
    unfold Sender.sentChunkTexts
    rw [h, if_pos hN]
    simp only [Nat.zero_add]
  · intro msg hle
    unfold Sender.sentChunkTexts
    rcases h : Sender.chunkMessage msg with _ | ⟨c, _ | ⟨d, rest⟩⟩
    · rfl
    · simp [Sender.chunkTextsGo]
    · rw [h] at hle
      simp at hle
  · intro msg i hfind hge
    unfold Sender.chunkSplitIdx
    rw [hfind]
    simp [hge]
  · intro msg j hnone hfind hge
    unfold Sender.chunkSplitIdx Sender.chunkSplitSpace
    rw [hnone, hfind]
    simp [hge]

/-- C5 witness: a 4097-character message splits into two chunks; the
second sent text is `[Part 2/2]` plus the second chunk. -/
theorem chunking_properties_witness :
    WsInterleaved (List.replicate 4097 'a')
        (Sender.chunkMessage (List.replicate 4097 'a'))
    ∧ (Sender.sentChunkTexts (List.replicate 4097 'a')).get? 1
        = some (Sender.partHeader 2 2 ++ ['a']) := by
  obtain ⟨h1, _, h3, _, _, _⟩ := chunking_properties
  constructor
  · exact h1 (List.replicate 4097 'a')
  · have hlen : 1 < (Sender.chunkMessage (List.replicate 4097 'a')).length := by
      rw [chunkMessage_replicate_4097]
      decide
    have hget : (Sender.chunkMessage (List.replicate 4097 'a')).get? 1
        = some ['a'] := by
      rw [chunkMessage_replicate_4097]
      rfl
    have h := h3 (List.replicate 4097 'a') 1 ['a'] hlen hget
    rw [chunkMessage_replicate_4097] at h
    exact h

/-- C5 counterexample to the claim as stated: on a 4097-character message
the code produces two chunks and prepends `[Part 1/2]` to the FIRST chunk
as well, so the first sent text is not the bare first chunk — the claim
says the prefix is added only to chunks beyond the first. -/
theorem first_chunk_carries_part_prefix :
    Sender.chunkMessage (List.replicate 4097 'a')
        = [List.replicate 4096 'a', ['a']]
    ∧ (Sender.sentChunkTexts (List.replicate 4097 'a')).get? 0
        = some (Sender.partHeader 1 2 ++ List.replicate 4096 'a')
    ∧ Sender.partHeader 1 2 = str "[Part 1/2]\n\n"
    ∧ ¬ ((Sender.sentChunkTexts (List.replicate 4097 'a')).get? 0
        = some (List.replicate 4096 'a')) := by
  refine ⟨chunkMessage_replicate_4097, ?_, by decide, ?_⟩
  · unfold Sender.sentChunkTexts
    rw [chunkMessage_replicate_4097]
    rfl
  · unfold Sender.sentChunkTexts
    rw [chunkMessage_replicate_4097]
    intro h
    have h2 : (Sender.chunkTextsGo 2 0 [List.replicate 4096 'a', ['a']]).get? 0
        = some (Sender.partHeader 1 2 ++ List.replicate 4096 'a') := rfl
    rw [show (List.length [List.replicate 4096 'a', ['a']]) = 2 from rfl] at h
    rw [h2] at h
    have h3 := congrArg List.length (Option.some.inj h)
    rw [List.length_append, List.length_replicate,
        show (Sender.partHeader 1 2).length = 12 from by decide] at h3
    omega
